import Mathlib

/-!
# Hospital patient queue (`src/main.c`): shallow embedding and verified properties

The store `PatientList` of the C program (a heap array `arr` with a live
prefix of `size` records) is modelled by the list of its live records, in
array order.  C strings are lists of byte values (`Nat`), machine integers are
`Int`.  Loops with a fixed trip count are folds over the index range, `while`
loops are recursive functions over their loop variables.

The data file is the list of its bytes; `fopen` failing is the file `none`.
The C library calls the program makes (`tolower`, `strstr`, `strtok`, `fgets`,
`fscanf`, `atoi`, `atol`, `fprintf`) are modelled after the C standard, with
the overflow behaviour of glibc on a 64-bit `long` and a 32-bit `int`.

Not modelled: memory allocation failure (`malloc`/`realloc` returning `NULL`),
console prompting (`read_int`, `safe_readline` hand typed values to the
operations), and the printed text.
-/

namespace PatientQueue

/-! ## Data model -/

/-- The C `Patient` struct.  `name` and `diagnosis` are the C strings held in
the `char[NAME_LEN]` and `char[DIAG_LEN]` fields, as lists of byte values. -/
structure Patient where
  id : Int
  name : List Nat
  age : Int
  priority : Int
  diagnosis : List Nat
  timestamp : Int
deriving DecidableEq, Inhabited

/-- The live records `arr[0 .. size-1]` of the C `PatientList`. -/
abbrev PatientList := List Patient

def NAME_LEN : Nat := 50
def DIAG_LEN : Nat := 80
def LINE_LEN : Nat := 256

/-! ## Recursion: merge sort by id -/

/-- The loop `while (i <= m && j <= r)` of `merge_by_id`; the state is
`(tmp, i, j, k)`. -/
def merge_loop (a tmp : List Patient) (m r i j k : Nat) :
    List Patient × Nat × Nat × Nat :=
  if i ≤ m ∧ j ≤ r then
    if (a.getD i default).id ≤ (a.getD j default).id then
      merge_loop a (tmp.set k (a.getD i default)) m r (i + 1) j (k + 1)
    else
      merge_loop a (tmp.set k (a.getD j default)) m r i (j + 1) (k + 1)
  else (tmp, i, j, k)
termination_by (m + 1 - i) + (r + 1 - j)

/-- The loops `while (i <= m) tmp[k++] = a[i++];` and
`while (j <= r) tmp[k++] = a[j++];` of `merge_by_id`. -/
def copy_run (a tmp : List Patient) (bound i k : Nat) : List Patient × Nat :=
  if i ≤ bound then copy_run a (tmp.set k (a.getD i default)) bound (i + 1) (k + 1)
  else (tmp, k)
termination_by bound + 1 - i

/-- The loop `for (i = l; i <= r; i++) a[i] = tmp[i];` of `merge_by_id`. -/
def copy_back (a tmp : List Patient) (l r : Nat) : List Patient :=
  (List.range' l (r + 1 - l)).foldl (fun a i => a.set i (tmp.getD i default)) a

/-- The three `while` loops of `merge_by_id`, run from the cursor state
`(i, j, k)`: the scratch array `tmp` afterwards. -/
def merge_fill (a tmp : List Patient) (m r i j k : Nat) : List Patient :=
  let s1 := merge_loop a tmp m r i j k
  let s2 := copy_run a s1.1 m s1.2.1 s1.2.2.2
  let s3 := copy_run a s2.1 r s1.2.2.1 s2.2
  s3.1

/-- The C `merge_by_id(a, l, m, r, tmp)`; returns the arrays `(a, tmp)`. -/
def merge_by_id (a : List Patient) (l m r : Nat) (tmp : List Patient) :
    List Patient × List Patient :=
  let t := merge_fill a tmp m r l (m + 1) l
  (copy_back a t l r, t)

/-- The C `merge_sort_by_id_rec(a, l, r, tmp)`; returns the arrays `(a, tmp)`. -/
def merge_sort_by_id_rec (a : List Patient) (l r : Nat) (tmp : List Patient) :
    List Patient × List Patient :=
  if l ≥ r then (a, tmp)
  else
    let m := l + (r - l) / 2
    let s1 := merge_sort_by_id_rec a l m tmp
    let s2 := merge_sort_by_id_rec s1.1 (m + 1) r s1.2
    merge_by_id s2.1 l m r s2.2
termination_by r - l
decreasing_by
  all_goals simp_wf
  all_goals omega

/-- The C `sort_by_id_for_binary`.  The scratch buffer `tmp` holds `size`
records of unspecified content. -/
def sort_by_id_for_binary (L : PatientList) : PatientList :=
  if L.length ≤ 1 then L
  else (merge_sort_by_id_rec L 0 (L.length - 1) (List.replicate L.length default)).1

/-! ## Search -/

/-- The C `tolower` on an `unsigned char`, in the "C" locale. -/
def tolower (c : Nat) : Nat := if 65 ≤ c ∧ c ≤ 90 then c + 32 else c

/-- The test `strncmp(hay, needle, strlen(needle)) == 0`. -/
def starts_with : List Nat → List Nat → Bool
  | _, [] => true
  | [], _ :: _ => false
  | h :: hs, n :: ns => h == n && starts_with hs ns

/-- The C `strstr(hay, needle)`: the offset of the first occurrence of
`needle` in `hay`, `none` for `NULL`. -/
def strstr : List Nat → List Nat → Option Nat
  | [], needle => if needle = [] then some 0 else none
  | h :: hs, needle =>
    if starts_with (h :: hs) needle then some 0
    else (strstr hs needle).map (· + 1)

/-- The loop of `linear_search_by_name`, from index `i` on; `rest` holds the
records `arr[i ..]`.  `snprintf` into the `NAME_LEN` buffers keeps at most
`NAME_LEN - 1` characters. -/
def linear_search_from (needle : List Nat) : List Patient → Int → Int
  | [], _ => -1
  | p :: rest, i =>
    let nameLower := (p.name.take (NAME_LEN - 1)).map tolower
    let needleLower := (needle.take (NAME_LEN - 1)).map tolower
    if (strstr nameLower needleLower).isSome then i
    else linear_search_from needle rest (i + 1)

/-- The C `linear_search_by_name`. -/
def linear_search_by_name (L : PatientList) (needle : List Nat) : Int :=
  linear_search_from needle L 0

/-- The loop `while (lo <= hi)` of `binary_search_by_id`.  The result `none`
stands for a read of `arr[mid]` outside `0 .. size-1`. -/
def binary_search_loop (a : List Patient) (id : Int) (lo hi : Int) : Option Int :=
  if lo ≤ hi then
    let mid := lo + (hi - lo) / 2
    if mid < 0 then none
    else
      match a[mid.toNat]? with
      | none => none
      | some p =>
        if p.id = id then some mid
        else if p.id < id then binary_search_loop a id (mid + 1) hi
        else binary_search_loop a id lo (mid - 1)
  else some (-1)
termination_by (hi + 1 - lo).toNat
decreasing_by
  all_goals simp_wf
  all_goals omega

/-- The C `binary_search_by_id`. -/
def binary_search_by_id (L : PatientList) (id : Int) : Option Int :=
  binary_search_loop L id 0 ((L.length : Int) - 1)

/-! ## Bubble sort by priority -/

/-- The body of the inner loop of `bubble_sort_by_priority`: compare
`arr[j]` with `arr[j+1]` and swap them when out of order. -/
def bubble_step (a : List Patient) (j : Nat) : List Patient :=
  if (a.getD j default).priority > (a.getD (j + 1) default).priority then
    (a.set j (a.getD (j + 1) default)).set (j + 1) (a.getD j default)
  else a

/-- The inner loop `for (j = 0; j < size - 1 - i; j++)`. -/
def bubble_pass (n i : Nat) (a : List Patient) : List Patient :=
  (List.range (n - 1 - i)).foldl bubble_step a

/-- The C `bubble_sort_by_priority`.  For `size = 0` the C bound `size - 1`
is `-1` and no iteration runs, as with the truncated subtraction here. -/
def bubble_sort_by_priority (L : PatientList) : PatientList :=
  (List.range (L.length - 1)).foldl (fun a i => bubble_pass L.length i a) L

/-! ## Core queue operations -/

/-- The C `id_exists_linear`. -/
def id_exists_linear : PatientList → Int → Bool
  | [], _ => false
  | p :: rest, id => if p.id = id then true else id_exists_linear rest id

/-- Outcome of `add_patient`. -/
inductive AddOutcome where
  | added
  | duplicateId
  | emptyName
deriving DecidableEq

/-- The record `p` that `add_patient` builds from the typed values; an empty
diagnosis is replaced by the text `N/A`. -/
def make_record (id : Int) (name : List Nat) (age priority : Int)
    (diagnosis : List Nat) (now : Int) : Patient :=
  ⟨id, name, age, priority, if diagnosis = [] then [78, 47, 65] else diagnosis, now⟩

/-- The C `add_patient`, given the values typed at its prompts (`id`, `name`,
`age`, `priority`, `diagnosis`) and the clock reading `now`.  The range
checks of `read_int` are the caller's. -/
def add_patient (L : PatientList) (id : Int) (name : List Nat) (age priority : Int)
    (diagnosis : List Nat) (now : Int) : AddOutcome × PatientList :=
  if id_exists_linear L id then (AddOutcome.duplicateId, L)
  else if name = [] then (AddOutcome.emptyName, L)
  else
    (AddOutcome.added,
      bubble_sort_by_priority (L ++ [make_record id name age priority diagnosis now]))

/-- The loop `for (i = 1; i < size; i++) arr[i-1] = arr[i];` of `serve_next`. -/
def shift_down (a : List Patient) : List Patient :=
  (List.range' 1 (a.length - 1)).foldl (fun a i => a.set (i - 1) (a.getD i default)) a

/-- The C `serve_next`: the served record (`none` when the queue is empty)
and the store afterwards. -/
def serve_next (L : PatientList) : Option Patient × PatientList :=
  if L.length = 0 then (none, L)
  else (some (L.getD 0 default), (shift_down L).take (L.length - 1))

/-- Call `serve_next` `n` times, collecting the served records in order. -/
def serve_times : Nat → PatientList → List Patient × PatientList
  | 0, L => ([], L)
  | n + 1, L =>
    match serve_next L with
    | (none, L1) => serve_times n L1
    | (some p, L1) => let r := serve_times n L1; (p :: r.1, r.2)

/-- Outcome of the ID branch of `search_menu`.  `found idx p`: the binary
search returned `idx` and `p` is the record `arr[idx]` that is printed.
`badRead`: a read outside `0 .. size-1`. -/
inductive SearchOutcome where
  | emptyQueue
  | notFound
  | found (idx : Int) (p : Patient)
  | badRead
deriving DecidableEq

/-- The ID branch of `search_menu`: sort by id, binary search, report, then
restore the queue order with the bubble sort.  Returns the outcome and the
store afterwards. -/
def find_by_id (L : PatientList) (id : Int) : SearchOutcome × PatientList :=
  if L.length = 0 then (SearchOutcome.emptyQueue, L)
  else
    let sorted := sort_by_id_for_binary L
    let outcome :=
      match binary_search_by_id sorted id with
      | none => SearchOutcome.badRead
      | some idx =>
        if idx = -1 then SearchOutcome.notFound
        else if idx < 0 then SearchOutcome.badRead
        else
          match sorted[idx.toNat]? with
          | none => SearchOutcome.badRead
          | some p => SearchOutcome.found idx p
    (outcome, bubble_sort_by_priority sorted)

/-- The name branch of `search_menu`: the result index and the store, which
the branch does not touch. -/
def find_by_name (L : PatientList) (needle : List Nat) : Int × PatientList :=
  (linear_search_by_name L needle, L)

/-! ## Sessions: sequences of menu operations -/

/-- One menu operation on the store, with the values the operator types. -/
inductive Op where
  | add (id : Int) (name : List Nat) (age priority : Int) (diagnosis : List Nat) (now : Int)
  | serve
  | find (id : Int)

/-- The store after one operation. -/
def apply_op (L : PatientList) : Op → PatientList
  | Op.add id name age priority diagnosis now =>
    (add_patient L id name age priority diagnosis now).2
  | Op.serve => (serve_next L).2
  | Op.find id => (find_by_id L id).2

/-- The record an operation inserts into the store `L`, if it inserts one. -/
def inserted_by (L : PatientList) : Op → List Patient
  | Op.add id name age priority diagnosis now =>
    if (add_patient L id name age priority diagnosis now).1 = AddOutcome.added then
      [make_record id name age priority diagnosis now]
    else []
  | Op.serve => []
  | Op.find _ => []

/-- Run a session from the state `s`: the store, and the log of the records
inserted so far, in insertion order. -/
def run_from (s : PatientList × List Patient) (ops : List Op) :
    PatientList × List Patient :=
  ops.foldl (fun s op => (apply_op s.1 op, s.2 ++ inserted_by s.1 op)) s

/-- Run a session from the empty store of `init_list`. -/
def run (ops : List Op) : PatientList × List Patient := run_from ([], []) ops

/-- Inserts and serves, as opposed to searches. -/
def Op.isQueueOp : Op → Bool
  | Op.add _ _ _ _ _ _ => true
  | Op.serve => true
  | Op.find _ => false

/-- Insert the record `p` through `add_patient`, typing its fields. -/
def add_record (L : PatientList) (p : Patient) : PatientList :=
  (add_patient L p.id p.name p.age p.priority p.diagnosis p.timestamp).2

/-- The record stored when the fields of `p` are typed into `add_patient`. -/
def stored (p : Patient) : Patient :=
  make_record p.id p.name p.age p.priority p.diagnosis p.timestamp

/-- The comparison of the queue order. -/
def prio_le (x y : Patient) : Prop := x.priority ≤ y.priority

instance : DecidableRel prio_le :=
  fun x y => inferInstanceAs (Decidable (x.priority ≤ y.priority))

/-! ## File operations -/

/-- The bytes of a string literal, for writing C strings in examples. -/
def cstr (s : String) : List Nat := s.toList.map Char.toNat

/-- The C `isspace` in the "C" locale: space, `\t`, `\n`, `\v`, `\f`, `\r`. -/
def isspace (c : Nat) : Bool := c == 32 || (9 ≤ c && c ≤ 13)

/-- The C `isdigit`. -/
def isdigit (c : Nat) : Bool := 48 ≤ c && c ≤ 57

/-- The text `printf` writes for a non-negative number under `%d` or `%ld`. -/
def fmt_nat (n : Nat) : List Nat :=
  if n = 0 then [48] else (Nat.digits 10 n).reverse.map (· + 48)

/-- The text `printf` writes for `%d` or `%ld`. -/
def fmt_int (v : Int) : List Nat :=
  if v < 0 then 45 :: fmt_nat v.natAbs else fmt_nat v.toNat

/-- The line `fprintf(fp, "%d|%s|%d|%d|%s|%ld\n", ...)` writes for one record. -/
def record_line (p : Patient) : List Nat :=
  fmt_int p.id ++ [124] ++ p.name ++ [124] ++ fmt_int p.age ++ [124] ++
    fmt_int p.priority ++ [124] ++ p.diagnosis ++ [124] ++ fmt_int p.timestamp ++ [10]

/-- The loop of `save_to_file` over the records. -/
def save_records : List Patient → List Nat
  | [] => []
  | p :: rest => record_line p ++ save_records rest

/-- The C `save_to_file`: the content of the file written (the file is taken
to open). -/
def save_to_file (L : PatientList) : List Nat :=
  fmt_int L.length ++ [10] ++ save_records L

/-- The value of a run of decimal digits. -/
def digits_value (ds : List Nat) : Nat :=
  ds.foldl (fun acc c => acc * 10 + (c - 48)) 0

def LONG_MAX : Int := 2 ^ 63 - 1
def LONG_MIN : Int := -(2 ^ 63)

/-- Clamp to the range of `long`, as `strtol` does on overflow. -/
def clamp_long (x : Int) : Int :=
  if x > LONG_MAX then LONG_MAX else if x < LONG_MIN then LONG_MIN else x

/-- Conversion of a `long` to `int`: keep the low 32 bits, two's complement. -/
def to_int32 (x : Int) : Int := (x + 2 ^ 31) % 2 ^ 32 - 2 ^ 31

/-- The text after an optional sign. -/
def skip_sign (s : List Nat) : List Nat :=
  match s with
  | 45 :: t => t
  | 43 :: t => t
  | _ => s

/-- Whether the text starts with a minus sign. -/
def has_minus (s : List Nat) : Bool :=
  match s with
  | 45 :: _ => true
  | _ => false

/-- The C `strtol(s, NULL, 10)`: skip white space, read an optional sign and
the decimal digits that follow (none gives 0), clamp to the range of `long`. -/
def strtol (s : List Nat) : Int :=
  let s1 := s.dropWhile isspace
  let v : Int := digits_value ((skip_sign s1).takeWhile isdigit)
  clamp_long (if has_minus s1 then -v else v)

/-- The C `atoi`, computed as `(int) strtol(s, NULL, 10)`: it has no failure
result, and text without a number reads as 0. -/
def atoi (s : List Nat) : Int := to_int32 (strtol s)

/-- The C `atol`. -/
def atol (s : List Nat) : Int := strtol s

/-- The call `fscanf(fp, "%d\n", &n)`: `none` when no number is matched (the
call does not return 1), else the number stored in `n` (converted like
`atoi`) and the rest of the stream, after the white space that the directive
`\n` skips. -/
def fscanf_count (s : List Nat) : Option (Int × List Nat) :=
  let s1 := s.dropWhile isspace
  let s2 := skip_sign s1
  let ds := s2.takeWhile isdigit
  if ds = [] then none
  else
    let v : Int := digits_value ds
    some (to_int32 (clamp_long (if has_minus s1 then -v else v)),
      (s2.dropWhile isdigit).dropWhile isspace)

/-- Read at most `k` characters of the stream, stopping after a newline: the
characters read and the rest of the stream. -/
def fgets_chars : Nat → List Nat → List Nat × List Nat
  | 0, s => ([], s)
  | _ + 1, [] => ([], [])
  | k + 1, c :: s =>
    if c = 10 then ([10], s)
    else ((c :: (fgets_chars k s).1), (fgets_chars k s).2)

/-- The C `fgets(line, size, fp)`: `none` at end of file. -/
def fgets (size : Nat) (s : List Nat) : Option (List Nat × List Nat) :=
  if s = [] then none else some (fgets_chars (size - 1) s)

/-- The C string held in a buffer: the bytes before the first NUL. -/
def c_str (buf : List Nat) : List Nat := buf.takeWhile (fun c => c != 0)

/-- The C `trim_newline`. -/
def trim_newline (s : List Nat) : List Nat :=
  if s.getLast? = some 10 then s.dropLast else s

/-- The C `strtok` with a one-character delimiter set, on the text at the
saved position: `none` for `NULL`, else the token and the new saved position. -/
def strtok (delim : Nat) (s : List Nat) : Option (List Nat × List Nat) :=
  let s1 := s.dropWhile (fun c => c == delim)
  if s1 = [] then none
  else some (s1.takeWhile (fun c => c != delim), (s1.dropWhile (fun c => c != delim)).tail)

/-- The C `parse_line_to_patient`: `none` for the return value 0, else the
record written to `*p`. -/
def parse_line_to_patient (line : List Nat) : Option Patient :=
  match strtok 124 (line.take (LINE_LEN - 1)) with
  | none => none
  | some (tok1, r1) =>
    match strtok 124 r1 with
    | none => none
    | some (tok2, r2) =>
      match strtok 124 r2 with
      | none => none
      | some (tok3, r3) =>
        match strtok 124 r3 with
        | none => none
        | some (tok4, r4) =>
          match strtok 124 r4 with
          | none => none
          | some (tok5, r5) =>
            match strtok 10 r5 with
            | none => none
            | some (tok6, _) =>
              let p : Patient :=
                ⟨atoi tok1, tok2.take (NAME_LEN - 1), atoi tok3, atoi tok4,
                  tok5.take (DIAG_LEN - 1), atol tok6⟩
              if p.id ≤ 0 ∨ p.age < 0 ∨ p.age > 120 ∨ p.priority < 1 ∨ p.priority > 5 then none
              else if p.name = [] then none
              else some p

/-- The loop `for (i = 0; i < n; i++)` of `load_from_file`: `n` iterations
left, `s` the rest of the stream, `acc` the records loaded so far. -/
def load_loop : Nat → List Nat → List Patient → List Patient
  | 0, _, acc => acc
  | n + 1, s, acc =>
    match fgets LINE_LEN s with
    | none => acc
    | some (line, rest) =>
      match parse_line_to_patient (trim_newline (c_str line)) with
      | some p => load_loop n rest (acc ++ [p])
      | none => load_loop n rest acc

/-- Outcome of `load_from_file`. -/
inductive LoadOutcome where
  | noFile
  | corrupted
  | loaded (count : Nat)
deriving DecidableEq

/-- The C `load_from_file` on a store `L`; `file` is the content of the data
file, `none` when it cannot be opened. -/
def load_from_file (L : PatientList) (file : Option (List Nat)) : LoadOutcome × PatientList :=
  match file with
  | none => (LoadOutcome.noFile, L)
  | some content =>
    match fscanf_count content with
    | none => (LoadOutcome.corrupted, L)
    | some (n, rest) =>
      if n < 0 then (LoadOutcome.corrupted, L)
      else
        let arr := bubble_sort_by_priority (load_loop n.toNat rest [])
        (LoadOutcome.loaded arr.length, arr)

/-! ## Specification vocabulary and proof devices -/

/-- Proof device: `m` compare-and-swap steps of one bubble pass, on the list
from its head. -/
def bpass : Nat → List Patient → List Patient
  | 0, l => l
  | _ + 1, [] => []
  | _ + 1, [x] => [x]
  | m + 1, x :: y :: r =>
    if x.priority > y.priority then y :: bpass m (x :: r) else x :: bpass m (y :: r)

/-- Queue order: priorities never decrease along the list. -/
def PrioSorted (l : List Patient) : Prop :=
  l.Pairwise (fun x y => x.priority ≤ y.priority)

/-- The records of priority `p`, in list order. -/
def prioClass (p : Int) (l : List Patient) : List Patient :=
  l.filter (fun x => decide (x.priority = p))

/-- The comparison `a[i].id <= a[j].id` of the merge. -/
def le_id (x y : Patient) : Bool := decide (x.id ≤ y.id)

/-- Identifier order: ids never decrease along the list. -/
def IdSorted (l : List Patient) : Prop :=
  l.Pairwise (fun x y => x.id ≤ y.id)

/-- The name test of `linear_search_by_name` on one record: the lower-cased
query occurs in the lower-cased name, both cut to `NAME_LEN - 1` characters. -/
def name_matches (needle : List Nat) (p : Patient) : Prop :=
  (needle.take (NAME_LEN - 1)).map tolower <:+: (p.name.take (NAME_LEN - 1)).map tolower

/-- Text that can stand in a field of a record line: no NUL (it is a C
string), no newline and no field delimiter. -/
def ValidText (s : List Nat) : Prop := ∀ c ∈ s, c ≠ 0 ∧ c ≠ 10 ∧ c ≠ 124

/-- The data model of a record: id 1..999999, age 0..120, priority 1..5,
non-empty name and diagnosis that fit their buffers and hold no delimiter or
newline; the timestamp is a C `long`. -/
def ValidRecord (p : Patient) : Prop :=
  (1 ≤ p.id ∧ p.id ≤ 999999) ∧ (0 ≤ p.age ∧ p.age ≤ 120) ∧
  (1 ≤ p.priority ∧ p.priority ≤ 5) ∧
  (p.name ≠ [] ∧ p.name.length ≤ NAME_LEN - 1 ∧ ValidText p.name) ∧
  (p.diagnosis ≠ [] ∧ p.diagnosis.length ≤ DIAG_LEN - 1 ∧ ValidText p.diagnosis) ∧
  (LONG_MIN ≤ p.timestamp ∧ p.timestamp ≤ LONG_MAX)

instance (s : List Nat) : Decidable (ValidText s) := by
  unfold ValidText; infer_instance

instance (p : Patient) : Decidable (ValidRecord p) := by
  unfold ValidRecord; infer_instance

/-- Six fields joined by the delimiter `|`: a record line without its
newline. -/
def join_fields (t1 t2 t3 t4 t5 t6 : List Nat) : List Nat :=
  t1 ++ 124 :: (t2 ++ 124 :: (t3 ++ 124 :: (t4 ++ 124 :: (t5 ++ 124 :: t6))))

/-- The record `parse_line_to_patient` builds from the six tokens of a line,
before its range checks. -/
def record_of_fields (t1 t2 t3 t4 t5 t6 : List Nat) : Patient :=
  ⟨atoi t1, t2.take (NAME_LEN - 1), atoi t3, atoi t4, t5.take (DIAG_LEN - 1), atol t6⟩

/-- The range checks at the end of `parse_line_to_patient`. -/
def passes_checks (p : Patient) : Prop :=
  ¬ (p.id ≤ 0 ∨ p.age < 0 ∨ p.age > 120 ∨ p.priority < 1 ∨ p.priority > 5) ∧ p.name ≠ []

instance (p : Patient) : Decidable (passes_checks p) := by
  unfold passes_checks; infer_instance

/-- The text of a file body: each line followed by a newline. -/
def lines_text : List (List Nat) → List Nat
  | [] => []
  | b :: bs => b ++ 10 :: lines_text bs

/-- A data file: the header line with the count `n`, then the lines. -/
def file_text (n : Nat) (lines : List (List Nat)) : List Nat :=
  fmt_nat n ++ 10 :: lines_text lines

/-- The line (without newline) that `save_to_file` writes for a record. -/
def record_body (p : Patient) : List Nat :=
  join_fields (fmt_int p.id) p.name (fmt_int p.age) (fmt_int p.priority) p.diagnosis
    (fmt_int p.timestamp)

/-- A field in which `strtol` finds no number: after optional white space
and sign, no digit follows. -/
def no_number (t : List Nat) : Prop :=
  (skip_sign (t.dropWhile isspace)).takeWhile isdigit = []

instance (t : List Nat) : Decidable (no_number t) := by
  unfold no_number; infer_instance

/-- A non-numeric field of a record line: text without NUL, newline or
delimiter that starts with a character other than white space and holds no
number, short enough for the line to fit the `LINE_LEN` buffer. -/
def BadNumberField (t : List Nat) : Prop :=
  (t.head?.map isspace = some false) ∧ ValidText t ∧ no_number t ∧ t.length ≤ 90

/-- The record line of `p` with the text `t` in place of the id. -/
def body_with_id (p : Patient) (t : List Nat) : List Nat :=
  join_fields t p.name (fmt_int p.age) (fmt_int p.priority) p.diagnosis (fmt_int p.timestamp)

/-- The record line of `p` with the text `t` in place of the age. -/
def body_with_age (p : Patient) (t : List Nat) : List Nat :=
  join_fields (fmt_int p.id) p.name t (fmt_int p.priority) p.diagnosis (fmt_int p.timestamp)

/-- The record line of `p` with the text `t` in place of the priority. -/
def body_with_priority (p : Patient) (t : List Nat) : List Nat :=
  join_fields (fmt_int p.id) p.name (fmt_int p.age) t p.diagnosis (fmt_int p.timestamp)

instance (t : List Nat) : Decidable (BadNumberField t) := by
  unfold BadNumberField; infer_instance

/-! ## Statistics by priority and age group -/

/-- The column of the statistics matrix for an age: the `if` chain of
`show_stats_2d`. -/
def age_col (age : Int) : Fin 4 :=
  if age ≤ 17 then 0 else if age ≤ 40 then 1 else if age ≤ 60 then 2 else 3

/-- The statement `stats[row][col]++` on the matrix `int stats[5][4]`. -/
def stats_incr (stats : Fin 5 → Fin 4 → Nat) (row : Fin 5) (col : Fin 4) :
    Fin 5 → Fin 4 → Nat :=
  fun i j => if i = row ∧ j = col then stats i j + 1 else stats i j

/-- The body of the loop of `show_stats_2d` for one record: the guard
`p >= 1 && p <= 5` keeps the row index `p - 1` inside the matrix. -/
def stats_step (stats : Fin 5 → Fin 4 → Nat) (r : Patient) : Fin 5 → Fin 4 → Nat :=
  if h : 1 ≤ r.priority ∧ r.priority ≤ 5 then
    stats_incr stats ⟨(r.priority - 1).toNat, by omega⟩ (age_col r.age)
  else stats

/-- The matrix `stats` that the C `show_stats_2d` computes and prints: row
`p - 1` for priority `p`, one column per age group. -/
def show_stats_2d (L : PatientList) : Fin 5 → Fin 4 → Nat :=
  L.foldl stats_step (fun _ _ => 0)

/-- The age brackets of the statistics report: 0..17, 18..40, 41..60 and 61
or more. -/
def in_bracket (b : Fin 4) (age : Int) : Prop :=
  (b = 0 ∧ 0 ≤ age ∧ age ≤ 17) ∨ (b = 1 ∧ 18 ≤ age ∧ age ≤ 40) ∨
  (b = 2 ∧ 41 ≤ age ∧ age ≤ 60) ∨ (b = 3 ∧ 61 ≤ age)

instance (b : Fin 4) (age : Int) : Decidable (in_bracket b age) := by
  unfold in_bracket; infer_instance

/-- The sum of the 20 cells of a statistics matrix. -/
def stats_total (stats : Fin 5 → Fin 4 → Nat) : Nat :=
  ∑ i : Fin 5, ∑ j : Fin 4, stats i j

/-! ## Reading a file: vocabulary -/

/-- The texts handed to `parse_line_to_patient` by the first `n` iterations
of the loop of `load_from_file` on the stream `s`: each is one `fgets` read,
as a C string, without its newline. -/
def read_lines : Nat → List Nat → List (List Nat)
  | 0, _ => []
  | n + 1, s =>
    match fgets LINE_LEN s with
    | none => []
    | some (line, rest) => trim_newline (c_str line) :: read_lines n rest

/-- The lines of a text: the runs of characters between newlines. -/
def text_lines : List Nat → List (List Nat)
  | [] => []
  | c :: s =>
    if c = 10 then [] :: text_lines s
    else
      match text_lines s with
      | [] => [[c]]
      | l :: ls => (c :: l) :: ls

/-- Whether `parse_line_to_patient` accepts the line. -/
def accepts (line : List Nat) : Bool := (parse_line_to_patient line).isSome

/-- Text at the start of which `fscanf` finds no number: it is empty, or it
begins with a character that is neither white space, a sign nor a digit, or it
begins with a sign that no digit follows. -/
def NoLeadingNumber (rest : List Nat) : Prop :=
  rest = [] ∨
  (∃ c t, rest = c :: t ∧ isspace c = false ∧ isdigit c = false ∧ c ≠ 45 ∧ c ≠ 43) ∨
  (∃ s t, rest = s :: t ∧ (s = 45 ∨ s = 43) ∧ ∀ d u, t = d :: u → isdigit d = false)

/-- A header that `load_from_file` reports as corrupt.  Either the file holds
no count where one is read: after white space it ends, or goes on with text
that does not start with a number.  Or it starts, after white space, with a
negative count that fits a C `int`, followed by a character that is not a
digit (or by nothing). -/
def CorruptHeader (content : List Nat) : Prop :=
  (∃ ws rest, content = ws ++ rest ∧ (∀ c ∈ ws, isspace c = true) ∧ NoLeadingNumber rest) ∨
  ∃ ws v rest, content = ws ++ fmt_int v ++ rest ∧ (∀ c ∈ ws, isspace c = true) ∧
    v < 0 ∧ -(2 ^ 31) ≤ v ∧ (∀ x t, rest = x :: t → isdigit x = false)

/-- The range checks on a record that `parse_line_to_patient` has accepted. -/
def InRange (p : Patient) : Prop :=
  1 ≤ p.id ∧ (0 ≤ p.age ∧ p.age ≤ 120) ∧ (1 ≤ p.priority ∧ p.priority ≤ 5) ∧ p.name ≠ []

instance (p : Patient) : Decidable (InRange p) := by
  unfold InRange; infer_instance

/-- The records with id `c`, in list order. -/
def idClass (c : Int) (l : List Patient) : List Patient :=
  l.filter (fun x => decide (x.id = c))

/-- Priority order with ties in identifier order. -/
def PrioThenId (x y : Patient) : Prop :=
  x.priority < y.priority ∨ (x.priority = y.priority ∧ x.id ≤ y.id)

/-! ## Lemmas

### Bubble sort -/

theorem bubble_step_append (pre : List Patient) (x y : Patient) (rest : List Patient) :
    bubble_step (pre ++ x :: y :: rest) pre.length =
      pre ++ (if x.priority > y.priority then y :: x :: rest else x :: y :: rest) := by
  have h0 : (pre ++ x :: y :: rest).getD pre.length default = x := by
    rw [List.getD_append_right _ _ _ _ (le_refl _)]; simp
  have h1 : (pre ++ x :: y :: rest).getD (pre.length + 1) default = y := by
    rw [List.getD_append_right _ _ _ _ (by omega)]; simp
  unfold bubble_step
  rw [h0, h1]
  split
  · rw [List.set_append_right _ _ (le_refl _)]
    simp only [Nat.sub_self, List.set_cons_zero]
    rw [List.set_append_right _ _ (by omega)]
    simp
  · rfl

theorem foldl_bubble_step (m : Nat) : ∀ (pre l : List Patient), m < l.length →
    (List.range' pre.length m).foldl bubble_step (pre ++ l) = pre ++ bpass m l := by
  induction m with
  | zero => intro pre l _; simp [bpass]
  | succ m ih =>
    intro pre l hl
    match l, hl with
    | [x], hl => simp at hl
    | x :: y :: r, hl =>
      rw [List.range'_succ, List.foldl_cons, bubble_step_append]
      simp only [bpass]
      have hlen : m < (x :: r).length := by simp at hl ⊢; omega
      have hlen2 : m < (y :: r).length := by simp at hl ⊢; omega
      split
      · have := ih (pre ++ [y]) (x :: r) hlen
        simp only [List.length_append, List.length_singleton, List.append_assoc,
          List.singleton_append] at this
        exact this
      · have := ih (pre ++ [x]) (y :: r) hlen2
        simp only [List.length_append, List.length_singleton, List.append_assoc,
          List.singleton_append] at this
        exact this

theorem bubble_pass_eq (n i : Nat) (a : List Patient) (h : n - 1 - i < a.length) :
    bubble_pass n i a = bpass (n - 1 - i) a := by
  have := foldl_bubble_step (n - 1 - i) [] a h
  simpa [bubble_pass, List.range_eq_range'] using this

theorem bpass_length (m : Nat) : ∀ l : List Patient, (bpass m l).length = l.length := by
  induction m with
  | zero => intro l; rfl
  | succ m ih =>
    intro l
    match l with
    | [] => rfl
    | [x] => rfl
    | x :: y :: r =>
      simp only [bpass]
      split <;> simp [ih]

theorem bpass_perm (m : Nat) : ∀ l : List Patient, (bpass m l).Perm l := by
  induction m with
  | zero => intro l; exact List.Perm.refl _
  | succ m ih =>
    intro l
    match l with
    | [] => exact List.Perm.refl _
    | [x] => exact List.Perm.refl _
    | x :: y :: r =>
      simp only [bpass]
      split
      · exact ((ih (x :: r)).cons y).trans (List.Perm.swap x y r)
      · exact (ih (y :: r)).cons x

theorem bpass_prioClass (p : Int) (m : Nat) :
    ∀ l : List Patient, prioClass p (bpass m l) = prioClass p l := by
  induction m with
  | zero => intro l; rfl
  | succ m ih =>
    intro l
    match l with
    | [] => rfl
    | [x] => rfl
    | x :: y :: r =>
      simp only [bpass]
      split
      · next hgt =>
        have := ih (x :: r)
        simp only [prioClass, List.filter_cons] at this ⊢
        rw [this]
        by_cases hx : x.priority = p <;> by_cases hy : y.priority = p <;> simp [hx, hy]
        omega
      · have := ih (y :: r)
        simp only [prioClass, List.filter_cons] at this ⊢
        rw [this]

theorem bpass_append (m : Nat) : ∀ l1 l2 : List Patient, m < l1.length →
    bpass m (l1 ++ l2) = bpass m l1 ++ l2 := by
  induction m with
  | zero => intro l1 l2 _; rfl
  | succ m ih =>
    intro l1 l2 h
    match l1, h with
    | [x], h => simp at h
    | x :: y :: r, h =>
      have h1 : m < (x :: r).length := by simp at h ⊢; omega
      have h2 : m < (y :: r).length := by simp at h ⊢; omega
      simp only [List.cons_append, bpass]
      split
      · exact congrArg (List.cons y) (ih (x :: r) l2 h1)
      · exact congrArg (List.cons x) (ih (y :: r) l2 h2)

theorem bpass_max (m : Nat) : ∀ l : List Patient, l.length = m + 1 →
    ∃ init mx, bpass m l = init ++ [mx] ∧ ∀ x ∈ init, x.priority ≤ mx.priority := by
  induction m with
  | zero =>
    intro l h
    match l, h with
    | [x], _ => exact ⟨[], x, rfl, by simp⟩
  | succ m ih =>
    intro l h
    match l, h with
    | x :: y :: r, h =>
      simp only [bpass]
      split
      · next hgt =>
        obtain ⟨init, mx, he, hmx⟩ := ih (x :: r) (by simp at h ⊢; omega)
        refine ⟨y :: init, mx, by rw [he]; rfl, ?_⟩
        intro z hz
        have hxin : x ∈ init ++ [mx] := by rw [← he]; exact (bpass_perm m (x :: r)).symm.subset (by simp)
        have hxle : x.priority ≤ mx.priority := by
          rcases List.mem_append.1 hxin with h1 | h1
          · exact hmx x h1
          · simp at h1; rw [h1]
        rcases List.mem_cons.1 hz with h1 | h1
        · rw [h1]; omega
        · exact hmx z h1
      · next hle =>
        obtain ⟨init, mx, he, hmx⟩ := ih (y :: r) (by simp at h ⊢; omega)
        refine ⟨x :: init, mx, by rw [he]; rfl, ?_⟩
        intro z hz
        have hyin : y ∈ init ++ [mx] := by rw [← he]; exact (bpass_perm m (y :: r)).symm.subset (by simp)
        have hyle : y.priority ≤ mx.priority := by
          rcases List.mem_append.1 hyin with h1 | h1
          · exact hmx y h1
          · simp at h1; rw [h1]
        rcases List.mem_cons.1 hz with h1 | h1
        · rw [h1]; omega
        · exact hmx z h1

theorem bpass_sorted (m : Nat) : ∀ l : List Patient, PrioSorted l → bpass m l = l := by
  induction m with
  | zero => intro l _; rfl
  | succ m ih =>
    intro l h
    match l, h with
    | [], _ => rfl
    | [x], _ => rfl
    | x :: y :: r, h =>
      simp only [bpass]
      have hxy : x.priority ≤ y.priority := by
        unfold PrioSorted at h
        exact List.rel_of_pairwise_cons h (by simp)
      rw [if_neg (by omega), ih (y :: r) (List.Pairwise.of_cons h)]

theorem bubble_outer_inv (L : List Patient) (k : Nat) (hk : k ≤ L.length - 1) :
    ∃ front back,
      (List.range k).foldl (fun a i => bubble_pass L.length i a) L = front ++ back ∧
      back.length = k ∧ (front ++ back).Perm L ∧
      (∀ p, prioClass p (front ++ back) = prioClass p L) ∧
      PrioSorted back ∧ ∀ x ∈ front, ∀ y ∈ back, x.priority ≤ y.priority := by
  induction k with
  | zero =>
    refine ⟨L, [], by simp, rfl, by simp, by simp, List.Pairwise.nil, by simp⟩
  | succ k ih =>
    obtain ⟨front, back, he, hlen, hperm, hcls, hsorted, hle⟩ := ih (by omega)
    rw [List.range_succ, List.foldl_append, List.foldl_cons, List.foldl_nil, he]
    have hL : (front ++ back).length = L.length := hperm.length_eq
    have hfl : front.length = (L.length - 1 - k) + 1 := by
      simp only [List.length_append] at hL; omega
    rw [bubble_pass_eq _ _ _ (by rw [hL]; omega), bpass_append _ _ _ (by omega)]
    obtain ⟨init, mx, hb, hmx⟩ := bpass_max (L.length - 1 - k) front hfl
    have hpf : (init ++ [mx]).Perm front := hb ▸ bpass_perm _ front
    have hcf : ∀ p, prioClass p (init ++ [mx]) = prioClass p front :=
      fun p => hb ▸ bpass_prioClass p _ front
    refine ⟨init, mx :: back, by rw [hb]; simp, by simp [hlen], ?_, ?_, ?_, ?_⟩
    · have : (init ++ mx :: back) = (init ++ [mx]) ++ back := by simp
      rw [this]
      exact (hpf.append_right back).trans hperm
    · intro p
      have : (init ++ mx :: back) = (init ++ [mx]) ++ back := by simp
      rw [this, ← hcls p]
      unfold prioClass at hcf ⊢
      rw [List.filter_append, hcf p, ← List.filter_append]
    · unfold PrioSorted
      refine List.Pairwise.cons ?_ hsorted
      intro y hy
      exact hle mx (hpf.subset (by simp)) y hy
    · intro x hx y hy
      rcases List.mem_cons.1 hy with h1 | h1
      · rw [h1]; exact hmx x hx
      · exact hle x (hpf.subset (by simp [hx])) y h1

/-- The bubble sort returns a permutation of its input. -/
theorem bubble_sort_perm (L : PatientList) : (bubble_sort_by_priority L).Perm L := by
  obtain ⟨front, back, he, _, hperm, _⟩ := bubble_outer_inv L (L.length - 1) (le_refl _)
  unfold bubble_sort_by_priority
  rw [he]; exact hperm

/-- The bubble sort keeps every priority class in its input order. -/
theorem bubble_sort_prioClass (L : PatientList) (p : Int) :
    prioClass p (bubble_sort_by_priority L) = prioClass p L := by
  obtain ⟨front, back, he, _, _, hcls, _⟩ := bubble_outer_inv L (L.length - 1) (le_refl _)
  unfold bubble_sort_by_priority
  rw [he]; exact hcls p

/-- The bubble sort leaves the list in queue order. -/
theorem bubble_sort_sorted (L : PatientList) : PrioSorted (bubble_sort_by_priority L) := by
  obtain ⟨front, back, he, hlen, hperm, _, hsorted, hle⟩ :=
    bubble_outer_inv L (L.length - 1) (le_refl _)
  unfold bubble_sort_by_priority
  rw [he]
  have hL : (front ++ back).length = L.length := hperm.length_eq
  have hfl : front.length ≤ 1 := by
    simp only [List.length_append] at hL; omega
  unfold PrioSorted at hsorted ⊢
  rw [List.pairwise_append]
  refine ⟨?_, hsorted, hle⟩
  match front, hfl with
  | [], _ => exact List.Pairwise.nil
  | [x], _ => exact List.pairwise_singleton _ _

theorem bubble_sort_length (L : PatientList) :
    (bubble_sort_by_priority L).length = L.length :=
  (bubble_sort_perm L).length_eq

/-- Two lists in queue order with the same priority classes are equal. -/
theorem prioSorted_ext : ∀ (l1 l2 : List Patient), PrioSorted l1 → PrioSorted l2 →
    (∀ p, prioClass p l1 = prioClass p l2) → l1 = l2 := by
  intro l1
  induction l1 with
  | nil =>
    intro l2 _ _ h
    match l2 with
    | [] => rfl
    | y :: t =>
      have := h y.priority
      simp [prioClass] at this
  | cons x t1 ih =>
    intro l2 h1 h2 h
    match l2 with
    | [] =>
      have := h x.priority
      simp [prioClass] at this
    | y :: t2 =>
      have hx := h x.priority
      have hy := h y.priority
      have hxy : x.priority = y.priority := by
        have hyin : y ∈ prioClass y.priority (x :: t1) := by
          rw [hy]; simp [prioClass]
        have hxin : x ∈ prioClass x.priority (y :: t2) := by
          rw [← hx]; simp [prioClass]
        have hy1 : y ∈ x :: t1 := (List.mem_filter.1 hyin).1
        have hx1 : x ∈ y :: t2 := (List.mem_filter.1 hxin).1
        have a1 : x.priority ≤ y.priority := by
          rcases List.mem_cons.1 hy1 with e | e
          · rw [e]
          · exact List.rel_of_pairwise_cons h1 e
        have a2 : y.priority ≤ x.priority := by
          rcases List.mem_cons.1 hx1 with e | e
          · rw [e]
          · exact List.rel_of_pairwise_cons h2 e
        omega
      have hxe : x = y := by
        simp only [prioClass, List.filter_cons, hxy, decide_True, if_true] at hx
        exact (List.cons.inj hx).1
      subst hxe
      congr 1
      refine ih t2 (List.Pairwise.of_cons h1) (List.Pairwise.of_cons h2) ?_
      intro p
      have hp := h p
      simp only [prioClass, List.filter_cons] at hp ⊢
      split at hp
      · exact (List.cons.inj hp).2
      · exact hp

/-- On a list already in queue order the bubble sort changes nothing. -/
theorem bubble_sort_of_sorted (L : PatientList) (h : PrioSorted L) :
    bubble_sort_by_priority L = L :=
  prioSorted_ext _ _ (bubble_sort_sorted L) h (bubble_sort_prioClass L)

/-! ### Serving and the linear scan -/

theorem shift_down_inv (L : List Patient) (k : Nat) (hk : k + 1 ≤ L.length) :
    (List.range' 1 k).foldl (fun a i => a.set (i - 1) (a.getD i default)) L =
      (L.drop 1).take k ++ L.drop k := by
  induction k with
  | zero => simp
  | succ k ih =>
    rw [List.range'_concat, List.foldl_append, List.foldl_cons, List.foldl_nil, ih (by omega)]
    have hA : ((L.drop 1).take k).length = k := by
      rw [List.length_take, List.length_drop]; omega
    obtain ⟨x, y, rest, hB⟩ : ∃ x y rest, L.drop k = x :: y :: rest := by
      have h1 : k < L.length := by omega
      have h2 : k + 1 < L.length := by omega
      exact ⟨L[k], L[k + 1], L.drop (k + 2), by
        rw [List.drop_eq_getElem_cons h1, List.drop_eq_getElem_cons h2]⟩
    have hB1 : L.drop (k + 1) = y :: rest := by
      have : L.drop (k + 1) = (L.drop k).drop 1 := by rw [List.drop_drop]
      rw [this, hB]; rfl
    have hT : (L.drop 1).take (k + 1) = (L.drop 1).take k ++ [y] := by
      rw [List.take_succ]
      congr 1
      have : (L.drop 1)[k]? = (L.drop (k + 1))[0]? := by
        simp only [List.getElem?_drop]; congr 1; omega
      rw [this, hB1]; simp
    rw [hB, hB1, hT]
    have e1 : 1 + 1 * k - 1 = ((L.drop 1).take k).length := by rw [hA]; omega
    have e2 : 1 + 1 * k = ((L.drop 1).take k).length + 1 := by rw [hA]; omega
    rw [e2, List.getD_append_right _ _ _ _ (by omega)]
    simp only [Nat.add_sub_cancel_left, Nat.add_sub_cancel, List.getD_cons_succ,
      List.getD_cons_zero]
    rw [List.set_append_right _ _ (by omega)]
    simp

/-- The shift loop and the decrement of `size` in `serve_next` drop the head
of the store and keep the rest as it was. -/
theorem serve_next_cons (x : Patient) (t : List Patient) :
    serve_next (x :: t) = (some x, t) := by
  unfold serve_next shift_down
  rw [if_neg (by simp), shift_down_inv (x :: t) ((x :: t).length - 1) (by simp)]
  simp

theorem serve_next_nil : serve_next [] = (none, []) := rfl

theorem serve_times_all : ∀ (L : PatientList), serve_times L.length L = (L, []) := by
  intro L
  induction L with
  | nil => rfl
  | cons x t ih =>
    simp only [List.length_cons, serve_times, serve_next_cons, ih]

theorem id_exists_linear_iff (L : PatientList) (id : Int) :
    id_exists_linear L id = true ↔ ∃ p ∈ L, p.id = id := by
  induction L with
  | nil => simp [id_exists_linear]
  | cons x t ih =>
    simp only [id_exists_linear]
    split
    · next h => simp [h]
    · next h => rw [ih]; simp [h]

theorem id_exists_linear_false_iff (L : PatientList) (id : Int) :
    id_exists_linear L id = false ↔ ∀ p ∈ L, p.id ≠ id := by
  rw [← Bool.not_eq_true, id_exists_linear_iff]
  simp

/-! ### Merge sort -/

theorem set_mid (P : List Patient) (q : Patient) (Q S : List Patient) (v : Patient) :
    (P ++ (q :: Q) ++ S).set P.length v = (P ++ [v]) ++ Q ++ S := by
  rw [List.append_assoc, List.set_append_right _ _ (le_refl _)]
  simp

theorem drop_take_succ (a : List Patient) (i n : Nat) (h : i < a.length) :
    (a.drop i).take (n + 1) = a.getD i default :: (a.drop (i + 1)).take n := by
  rw [List.drop_eq_getElem_cons h, List.take_succ_cons, List.getD_eq_getElem _ _ h]

theorem copy_run_spec (n : Nat) : ∀ (a P Q S : List Patient) (bound i : Nat),
    Q.length = n → bound + 1 - i = n → bound < a.length →
    copy_run a (P ++ Q ++ S) bound i P.length =
      (P ++ (a.drop i).take n ++ S, P.length + n) := by
  induction n with
  | zero =>
    intro a P Q S bound i hQ hn _
    rw [copy_run, if_neg (by omega)]
    have : Q = [] := List.length_eq_zero.1 hQ
    simp [this]
  | succ n ih =>
    intro a P Q S bound i hQ hn hb
    match Q, hQ with
    | q :: Q, hQ =>
      rw [copy_run, if_pos (by omega), set_mid]
      have := ih a (P ++ [a.getD i default]) Q S bound (i + 1) (by simpa using hQ) (by omega) hb
      simp only [List.length_append, List.length_singleton] at this
      rw [this, drop_take_succ a i n (by omega)]
      simp
      omega

theorem copy_run_done (a tmp : List Patient) (bound i k : Nat) (h : bound < i) :
    copy_run a tmp bound i k = (tmp, k) := by
  rw [copy_run, if_neg (by omega)]

theorem merge_fill_spec (n : Nat) : ∀ (a P Q S : List Patient) (m r i j : Nat),
    Q.length = n → (m + 1 - i) + (r + 1 - j) = n → m < a.length → r < a.length →
    merge_fill a (P ++ Q ++ S) m r i j P.length =
      P ++ List.merge ((a.drop i).take (m + 1 - i)) ((a.drop j).take (r + 1 - j)) le_id ++ S := by
  induction n with
  | zero =>
    intro a P Q S m r i j hQ hn _ _
    have hQ0 : Q = [] := List.length_eq_zero.1 hQ
    have h1 : m + 1 - i = 0 := by omega
    have h2 : r + 1 - j = 0 := by omega
    unfold merge_fill
    rw [merge_loop, if_neg (by omega)]
    simp only
    rw [copy_run_done _ _ _ _ _ (by omega)]
    simp only
    rw [copy_run_done _ _ _ _ _ (by omega), h1, h2, hQ0]
    simp
  | succ n ih =>
    intro a P Q S m r i j hQ hn hm hr
    by_cases hc : i ≤ m ∧ j ≤ r
    · match Q, hQ with
      | q :: Q, hQ =>
        have hi : i < a.length := by omega
        have hj : j < a.length := by omega
        have e1 : m + 1 - i = (m - i) + 1 := by omega
        have e2 : r + 1 - j = (r - j) + 1 := by omega
        unfold merge_fill
        rw [merge_loop, if_pos hc]
        rw [e1, e2, drop_take_succ a i _ hi, drop_take_succ a j _ hj, List.cons_merge_cons]
        by_cases hle : (a.getD i default).id ≤ (a.getD j default).id
        · rw [if_pos hle, set_mid]
          have := ih a (P ++ [a.getD i default]) Q S m r (i + 1) j (by simpa using hQ)
            (by omega) hm hr
          unfold merge_fill at this
          simp only [List.length_append, List.length_singleton] at this
          rw [this]
          have e3 : m + 1 - (i + 1) = m - i := by omega
          rw [e3, e2, drop_take_succ a j _ hj, if_pos (show le_id (a.getD i default) (a.getD j default) = true from decide_eq_true hle)]
          simp
        · rw [if_neg hle, set_mid]
          have := ih a (P ++ [a.getD j default]) Q S m r i (j + 1) (by simpa using hQ)
            (by omega) hm hr
          unfold merge_fill at this
          simp only [List.length_append, List.length_singleton] at this
          rw [this]
          have e3 : r + 1 - (j + 1) = r - j := by omega
          rw [e3, e1, drop_take_succ a i _ hi, if_neg (show ¬ le_id (a.getD i default) (a.getD j default) = true from
            fun h => hle (of_decide_eq_true h))]
          simp
    · unfold merge_fill
      rw [merge_loop, if_neg hc]
      simp only
      by_cases hi : i ≤ m
      · have hj : r < j := by omega
        have h2 : r + 1 - j = 0 := by omega
        rw [copy_run_spec (n + 1) a P Q S m i hQ (by omega) hm]
        simp only
        rw [copy_run_done _ _ _ _ _ hj, h2]
        have : m + 1 - i = n + 1 := by omega
        simp [this]
      · have h1 : m + 1 - i = 0 := by omega
        rw [copy_run_done a (P ++ Q ++ S) m i P.length (by omega)]
        simp only
        rw [copy_run_spec (n + 1) a P Q S r j hQ (by omega) hr, h1]
        have : r + 1 - j = n + 1 := by omega
        simp [this]

theorem copy_back_spec (n : Nat) : ∀ (A B C P X S : List Patient) (l r : Nat),
    A.length = l → P.length = l → B.length = n → X.length = n → r + 1 - l = n →
    copy_back (A ++ B ++ C) (P ++ X ++ S) l r = A ++ X ++ C := by
  induction n with
  | zero =>
    intro A B C P X S l r _ _ hB hX hn
    have hB0 : B = [] := List.length_eq_zero.1 hB
    have hX0 : X = [] := List.length_eq_zero.1 hX
    simp [copy_back, hn, hB0, hX0]
  | succ n ih =>
    intro A B C P X S l r hA hP hB hX hn
    match B, hB, X, hX with
    | b :: B, hB, x :: X, hX =>
      have key := ih (A ++ [x]) B C (P ++ [x]) X S (l + 1) r (by simp [hA]) (by simp [hP])
        (by simpa using hB) (by simpa using hX) (by omega)
      unfold copy_back at key ⊢
      rw [hn, List.range'_succ, List.foldl_cons]
      have e1 : r + 1 - (l + 1) = n := by omega
      rw [e1] at key
      have hget : (P ++ x :: X ++ S).getD l default = x := by
        rw [List.append_assoc, List.getD_append_right _ _ _ _ (by omega)]
        simp [hP]
      rw [hget]
      have hset : (A ++ b :: B ++ C).set l x = A ++ [x] ++ B ++ C := by
        rw [← hA]; exact set_mid A b B C x
      rw [hset]
      have hP2 : P ++ x :: X ++ S = P ++ [x] ++ X ++ S := by simp
      rw [hP2, key]
      simp

theorem merge_by_id_spec (A B1 B2 C P Q S : List Patient) (l m r : Nat)
    (hA : A.length = l) (hP : P.length = l) (hB1 : B1.length = m + 1 - l) (hlm : l ≤ m)
    (hB2 : B2.length = r - m) (hmr : m ≤ r) (hQ : Q.length = B1.length + B2.length) :
    merge_by_id (A ++ B1 ++ B2 ++ C) l m r (P ++ Q ++ S) =
      (A ++ List.merge B1 B2 le_id ++ C, P ++ List.merge B1 B2 le_id ++ S) := by
  have hlen : (A ++ B1 ++ B2 ++ C).length = l + (m + 1 - l) + (r - m) + C.length := by
    simp [hA, hB1, hB2]; omega
  have hd1 : ((A ++ B1 ++ B2 ++ C).drop l).take (m + 1 - l) = B1 := by
    have : A ++ B1 ++ B2 ++ C = A ++ (B1 ++ (B2 ++ C)) := by simp
    rw [this, List.drop_left' hA, List.take_left' hB1]
  have hd2 : ((A ++ B1 ++ B2 ++ C).drop (m + 1)).take (r + 1 - (m + 1)) = B2 := by
    have : A ++ B1 ++ B2 ++ C = (A ++ B1) ++ (B2 ++ C) := by simp
    rw [this, List.drop_left' (by simp [hA, hB1]; omega), List.take_left' (by omega)]
  have hfill : merge_fill (A ++ B1 ++ B2 ++ C) (P ++ Q ++ S) m r l (m + 1) l =
      P ++ List.merge B1 B2 le_id ++ S := by
    have := merge_fill_spec Q.length (A ++ B1 ++ B2 ++ C) P Q S m r l (m + 1) rfl
      (by omega) (by omega) (by omega)
    rw [hP, hd1, hd2] at this
    exact this
  unfold merge_by_id
  simp only [hfill]
  have hcb := copy_back_spec (B1.length + B2.length) A (B1 ++ B2) C P (List.merge B1 B2 le_id) S
    l r hA hP (by simp) (by simp [List.length_merge]) (by omega)
  have e : A ++ B1 ++ B2 ++ C = A ++ (B1 ++ B2) ++ C := by simp
  rw [e, hcb]

theorem mergeSort_unfold (l : List Patient) (h : 2 ≤ l.length) :
    l.mergeSort le_id =
      List.merge ((l.take ((l.length + 1) / 2)).mergeSort le_id)
        ((l.drop ((l.length + 1) / 2)).mergeSort le_id) le_id := by
  match l, h with
  | a :: b :: xs, _ =>
    rw [List.mergeSort]
    simp only [List.splitInTwo_fst, List.splitInTwo_snd]

theorem merge_sort_rec_spec (n : Nat) : ∀ (A B C P Q S : List Patient) (l r : Nat),
    B.length = n → A.length = l → P.length = l → B.length = r + 1 - l → l ≤ r →
    Q.length = B.length →
    ∃ Q1, Q1.length = Q.length ∧
      merge_sort_by_id_rec (A ++ B ++ C) l r (P ++ Q ++ S) =
        (A ++ B.mergeSort le_id ++ C, P ++ Q1 ++ S) := by
  induction n using Nat.strong_induction_on with
  | _ n ih =>
    intro A B C P Q S l r hn hA hP hB hlr hQ
    rw [merge_sort_by_id_rec]
    by_cases hge : l ≥ r
    · rw [if_pos hge]
      have h1 : B.length = 1 := by omega
      match B, h1 with
      | [b], _ => exact ⟨Q, rfl, by simp⟩
    · rw [if_neg hge]
      simp only
      have hm1 : l ≤ l + (r - l) / 2 := by omega
      have hm2 : l + (r - l) / 2 < r := by omega
      have hhalf : (B.length + 1) / 2 = (r - l) / 2 + 1 := by omega
      have hB1 : (B.take ((B.length + 1) / 2)).length = (r - l) / 2 + 1 := by
        rw [List.length_take]; omega
      have hB2 : (B.drop ((B.length + 1) / 2)).length = r - (l + (r - l) / 2) := by
        rw [List.length_drop]; omega
      have hQ1 : (Q.take ((B.length + 1) / 2)).length = (r - l) / 2 + 1 := by
        rw [List.length_take]; omega
      have hQ2 : (Q.drop ((B.length + 1) / 2)).length = r - (l + (r - l) / 2) := by
        rw [List.length_drop]; omega
      obtain ⟨R1, hR1, e1⟩ := ih _ (by rw [hB1]; omega) A (B.take ((B.length + 1) / 2))
        (B.drop ((B.length + 1) / 2) ++ C) P (Q.take ((B.length + 1) / 2))
        (Q.drop ((B.length + 1) / 2) ++ S) l (l + (r - l) / 2) rfl hA hP
        (by rw [hB1]; omega) hm1 (by rw [hQ1, hB1])
      have ea : A ++ B ++ C = A ++ B.take ((B.length + 1) / 2) ++
          (B.drop ((B.length + 1) / 2) ++ C) := by
        conv_lhs => rw [← List.take_append_drop ((B.length + 1) / 2) B]
        simp only [List.append_assoc]
      have et : P ++ Q ++ S = P ++ Q.take ((B.length + 1) / 2) ++
          (Q.drop ((B.length + 1) / 2) ++ S) := by
        conv_lhs => rw [← List.take_append_drop ((B.length + 1) / 2) Q]
        simp only [List.append_assoc]
      rw [ea, et, e1]
      simp only
      obtain ⟨R2, hR2, e2⟩ := ih _ (by rw [hB2]; omega)
        (A ++ (B.take ((B.length + 1) / 2)).mergeSort le_id) (B.drop ((B.length + 1) / 2)) C
        (P ++ R1) (Q.drop ((B.length + 1) / 2)) S (l + (r - l) / 2 + 1) r rfl
        (by simp [hA, hB1]; omega) (by simp [hP, hR1, hQ1]; omega)
        (by rw [hB2]; omega) (by omega) (by rw [hQ2, hB2])
      have ea2 : A ++ (B.take ((B.length + 1) / 2)).mergeSort le_id ++
          (B.drop ((B.length + 1) / 2) ++ C) =
          A ++ (B.take ((B.length + 1) / 2)).mergeSort le_id ++
            B.drop ((B.length + 1) / 2) ++ C := by simp
      have et2 : P ++ R1 ++ (Q.drop ((B.length + 1) / 2) ++ S) =
          P ++ R1 ++ Q.drop ((B.length + 1) / 2) ++ S := by simp
      rw [ea2, et2, e2]
      simp only
      have em := merge_by_id_spec A ((B.take ((B.length + 1) / 2)).mergeSort le_id)
        ((B.drop ((B.length + 1) / 2)).mergeSort le_id) C P (R1 ++ R2) S l (l + (r - l) / 2) r
        hA hP (by rw [List.length_mergeSort, hB1]; omega) hm1
        (by rw [List.length_mergeSort, hB2]) (by omega)
        (by simp [List.length_mergeSort, hB1, hB2, hR1, hR2, hQ1, hQ2])
      have et3 : P ++ R1 ++ R2 ++ S = P ++ (R1 ++ R2) ++ S := by simp
      rw [et3, em, ← mergeSort_unfold B (by omega)]
      refine ⟨List.merge ((B.take ((B.length + 1) / 2)).mergeSort le_id)
        ((B.drop ((B.length + 1) / 2)).mergeSort le_id) le_id, ?_, ?_⟩
      · rw [List.length_merge, List.length_mergeSort, List.length_mergeSort, hB1, hB2]; omega
      · rw [← mergeSort_unfold B (by omega)]

/-- The array merge sort of the program computes the stable merge sort of the
list of records, on the key `id`. -/
theorem sort_by_id_eq_mergeSort (L : PatientList) :
    sort_by_id_for_binary L = L.mergeSort le_id := by
  unfold sort_by_id_for_binary
  by_cases h : L.length ≤ 1
  · rw [if_pos h]
    match L, h with
    | [], _ => simp
    | [x], _ => simp
    | _ :: _ :: _, h => simp at h
  · rw [if_neg h]
    obtain ⟨Q1, _, e⟩ := merge_sort_rec_spec L.length [] L [] [] (List.replicate L.length default)
      [] 0 (L.length - 1) rfl rfl rfl (by omega) (by omega) (by simp)
    simp only [List.nil_append, List.append_nil] at e
    rw [e]

/-! ### Binary search and the ID search -/

theorem le_id_trans (a b c : Patient) : le_id a b = true → le_id b c = true →
    le_id a c = true := by
  unfold le_id
  intro h1 h2
  have := of_decide_eq_true h1
  have := of_decide_eq_true h2
  exact decide_eq_true (by omega)

theorem le_id_total (a b : Patient) : (le_id a b || le_id b a) = true := by
  unfold le_id
  by_cases h : a.id ≤ b.id
  · simp [h]
  · have : b.id ≤ a.id := by omega
    simp [this]

theorem sort_by_id_sorted (L : PatientList) : IdSorted (sort_by_id_for_binary L) := by
  rw [sort_by_id_eq_mergeSort]
  have := List.sorted_mergeSort le_id_trans le_id_total L
  unfold IdSorted
  refine this.imp ?_
  intro a b h
  exact of_decide_eq_true h

theorem sort_by_id_perm (L : PatientList) : (sort_by_id_for_binary L).Perm L := by
  rw [sort_by_id_eq_mergeSort]
  exact List.mergeSort_perm L le_id

/-- What the binary search loop returns on an array in identifier order, when
every position holding `id` lies in `lo .. hi`. -/
theorem binary_search_loop_spec (a : List Patient) (id : Int) (hs : IdSorted a) (n : Nat) :
    ∀ (lo hi : Int), (hi + 1 - lo).toNat = n → 0 ≤ lo → hi < a.length →
    (∀ (t : Nat) (ht : t < a.length), a[t].id = id → lo ≤ t ∧ (t : Int) ≤ hi) →
    (binary_search_loop a id lo hi = some (-1) ∧ ∀ p ∈ a, p.id ≠ id) ∨
    (∃ (t : Nat) (ht : t < a.length),
      binary_search_loop a id lo hi = some (t : Int) ∧ a[t].id = id) := by
  induction n using Nat.strong_induction_on with
  | _ n ih =>
    intro lo hi hn hlo hhi hinv
    rw [binary_search_loop]
    by_cases hc : lo ≤ hi
    · rw [if_pos hc]
      simp only
      have hmid0 : ¬ (lo + (hi - lo) / 2 < 0) := by omega
      rw [if_neg hmid0]
      have hmlt : (lo + (hi - lo) / 2).toNat < a.length := by omega
      rw [List.getElem?_eq_getElem hmlt]
      simp only
      have hcast : (((lo + (hi - lo) / 2).toNat : Nat) : Int) = lo + (hi - lo) / 2 :=
        Int.toNat_of_nonneg (by omega)
      by_cases he : a[(lo + (hi - lo) / 2).toNat].id = id
      · rw [if_pos he]
        exact Or.inr ⟨(lo + (hi - lo) / 2).toNat, hmlt, by rw [hcast], he⟩
      · rw [if_neg he]
        unfold IdSorted at hs
        rw [List.pairwise_iff_getElem] at hs
        by_cases hl : a[(lo + (hi - lo) / 2).toNat].id < id
        · rw [if_pos hl]
          refine ih _ (by omega) (lo + (hi - lo) / 2 + 1) hi rfl (by omega) hhi ?_
          intro t ht hte
          have := hinv t ht hte
          refine ⟨?_, this.2⟩
          by_contra hcon
          have htm : t ≤ (lo + (hi - lo) / 2).toNat := by omega
          rcases Nat.lt_or_eq_of_le htm with h1 | h1
          · have := hs t _ ht hmlt h1
            omega
          · subst h1; exact he hte
        · rw [if_neg hl]
          refine ih _ (by omega) lo (lo + (hi - lo) / 2 - 1) rfl hlo (by omega) ?_
          intro t ht hte
          have := hinv t ht hte
          refine ⟨this.1, ?_⟩
          by_contra hcon
          have htm : (lo + (hi - lo) / 2).toNat ≤ t := by omega
          rcases Nat.lt_or_eq_of_le htm with h1 | h1
          · have := hs _ t hmlt ht h1
            omega
          · subst h1; exact he hte
    · rw [if_neg hc]
      refine Or.inl ⟨rfl, ?_⟩
      intro p hp hpid
      obtain ⟨t, ht, rfl⟩ := List.mem_iff_getElem.1 hp
      have := hinv t ht hpid
      omega

theorem binary_search_by_id_spec (a : List Patient) (id : Int) (hs : IdSorted a) :
    (binary_search_by_id a id = some (-1) ∧ ∀ p ∈ a, p.id ≠ id) ∨
    (∃ (t : Nat) (ht : t < a.length),
      binary_search_by_id a id = some (t : Int) ∧ a[t].id = id) := by
  unfold binary_search_by_id
  refine binary_search_loop_spec a id hs _ 0 _ rfl (le_refl _) (by omega) ?_
  intro t ht _
  omega

/-- The outcome of the ID search on a non-empty store, by cases on whether
some record has the id. -/
theorem find_by_id_outcome (L : PatientList) (id : Int) (hne : L ≠ []) :
    ((find_by_id L id).1 = SearchOutcome.notFound ∧ ∀ p ∈ L, p.id ≠ id) ∨
    (∃ (t : Nat) (p : Patient), (find_by_id L id).1 = SearchOutcome.found (t : Int) p ∧
      (sort_by_id_for_binary L)[t]? = some p ∧ p.id = id ∧ p ∈ L) := by
  have hlen : ¬ L.length = 0 := by
    intro h; exact hne (List.length_eq_zero.1 h)
  unfold find_by_id
  rw [if_neg hlen]
  simp only
  rcases binary_search_by_id_spec (sort_by_id_for_binary L) id (sort_by_id_sorted L) with
    ⟨he, hno⟩ | ⟨t, ht, he, hid⟩
  · left
    rw [he]
    refine ⟨by simp, ?_⟩
    intro p hp
    exact hno p ((sort_by_id_perm L).symm.subset hp)
  · right
    refine ⟨t, (sort_by_id_for_binary L)[t], ?_, List.getElem?_eq_getElem ht, hid,
      (sort_by_id_perm L).subset (List.getElem_mem ht)⟩
    rw [he]
    have h1 : ¬ ((t : Int) = -1) := by omega
    have h2 : ¬ ((t : Int) < 0) := by omega
    simp only [h1, h2, if_false, Int.toNat_ofNat, List.getElem?_eq_getElem ht]

theorem find_by_id_store (L : PatientList) (id : Int) :
    (find_by_id L id).2 = bubble_sort_by_priority (sort_by_id_for_binary L) := by
  unfold find_by_id
  by_cases h : L.length = 0
  · have : L = [] := List.length_eq_zero.1 h
    subst this
    rfl
  · rw [if_neg h]

theorem find_by_id_perm (L : PatientList) (id : Int) : (find_by_id L id).2.Perm L := by
  rw [find_by_id_store]
  exact (bubble_sort_perm _).trans (sort_by_id_perm L)

/-! ### Sessions -/

theorem add_patient_fresh (L : PatientList) (id : Int) (name : List Nat) (age priority : Int)
    (diagnosis : List Nat) (now : Int) (hf : id_exists_linear L id = false) (hn : name ≠ []) :
    add_patient L id name age priority diagnosis now =
      (AddOutcome.added,
        bubble_sort_by_priority (L ++ [make_record id name age priority diagnosis now])) := by
  unfold add_patient
  rw [hf, if_neg hn]
  simp

theorem add_patient_cases (L : PatientList) (id : Int) (name : List Nat) (age priority : Int)
    (diagnosis : List Nat) (now : Int) :
    ((add_patient L id name age priority diagnosis now).1 ≠ AddOutcome.added ∧
      (add_patient L id name age priority diagnosis now).2 = L) ∨
    (id_exists_linear L id = false ∧
      add_patient L id name age priority diagnosis now =
      (AddOutcome.added,
        bubble_sort_by_priority (L ++ [make_record id name age priority diagnosis now]))) := by
  unfold add_patient
  by_cases h1 : id_exists_linear L id = true
  · left; rw [if_pos h1]; simp
  · by_cases h2 : name = []
    · left; rw [if_neg h1, if_pos h2]; simp
    · right; rw [if_neg h1, if_neg h2]; simp at h1; simp [h1]

theorem prioClass_append (c : Int) (l1 l2 : List Patient) :
    prioClass c (l1 ++ l2) = prioClass c l1 ++ prioClass c l2 := by
  unfold prioClass; exact List.filter_append l1 l2

/-- The invariant of a session of inserts and serves. -/
theorem queue_step_inv (s : PatientList × List Patient) (op : Op) (hq : op.isQueueOp = true)
    (h1 : PrioSorted s.1) (h2 : ∀ c, (prioClass c s.1).Sublist (prioClass c s.2)) :
    PrioSorted (apply_op s.1 op) ∧
    ∀ c, (prioClass c (apply_op s.1 op)).Sublist (prioClass c (s.2 ++ inserted_by s.1 op)) := by
  cases op with
  | add id name age priority diagnosis now =>
    simp only [apply_op, inserted_by]
    rcases add_patient_cases s.1 id name age priority diagnosis now with ⟨hne, he⟩ | ⟨_, he⟩
    · rw [he, if_neg hne]
      exact ⟨h1, fun c => by simpa using h2 c⟩
    · rw [he]
      refine ⟨bubble_sort_sorted _, fun c => ?_⟩
      simp only [if_true]
      rw [bubble_sort_prioClass, prioClass_append, prioClass_append]
      exact List.Sublist.append (h2 c) (List.Sublist.refl _)
  | serve =>
    simp only [apply_op, inserted_by, List.append_nil]
    match hs : s.1 with
    | [] => rw [serve_next_nil]; rw [hs] at h1 h2; exact ⟨h1, h2⟩
    | x :: t =>
      rw [serve_next_cons]
      rw [hs] at h1 h2
      refine ⟨List.Pairwise.of_cons h1, fun c => ?_⟩
      refine List.Sublist.trans ?_ (h2 c)
      unfold prioClass
      exact List.Sublist.filter _ (List.sublist_cons_self x t)
  | find id => simp [Op.isQueueOp] at hq

theorem run_from_queue_inv (ops : List Op) : ∀ (s : PatientList × List Patient),
    (∀ op ∈ ops, op.isQueueOp = true) → PrioSorted s.1 →
    (∀ c, (prioClass c s.1).Sublist (prioClass c s.2)) →
    PrioSorted (run_from s ops).1 ∧
    ∀ c, (prioClass c (run_from s ops).1).Sublist (prioClass c (run_from s ops).2) := by
  induction ops with
  | nil => intro s _ h1 h2; exact ⟨h1, h2⟩
  | cons op rest ih =>
    intro s hq h1 h2
    have hstep := queue_step_inv s op (hq op (by simp)) h1 h2
    exact ih (apply_op s.1 op, s.2 ++ inserted_by s.1 op)
      (fun o ho => hq o (by simp [ho])) hstep.1 hstep.2

theorem ids_step_inv (L : PatientList) (op : Op) (h : (L.map (·.id)).Nodup) :
    ((apply_op L op).map (·.id)).Nodup := by
  cases op with
  | add id name age priority diagnosis now =>
    simp only [apply_op]
    rcases add_patient_cases L id name age priority diagnosis now with ⟨_, he⟩ | ⟨hf, he⟩
    · rw [he]; exact h
    · rw [he]
      simp only
      refine (((bubble_sort_perm _).map (·.id)).nodup_iff).2 ?_
      rw [List.map_append, List.nodup_append]
      refine ⟨h, by simp, ?_⟩
      intro a ha hb
      simp only [List.map_cons, List.map_nil, List.mem_singleton, make_record] at hb
      obtain ⟨q, hq, hqa⟩ := List.mem_map.1 ha
      exact (id_exists_linear_false_iff L id).1 hf q hq (by rw [hqa, hb])
  | serve =>
    simp only [apply_op]
    match L, h with
    | [], h => rw [serve_next_nil]; exact h
    | x :: t, h =>
      rw [serve_next_cons]
      simp only [List.map_cons, List.nodup_cons] at h
      exact h.2
  | find id =>
    simp only [apply_op]
    exact (((find_by_id_perm L id).map (·.id)).nodup_iff).2 h

theorem run_from_ids_inv (ops : List Op) : ∀ (s : PatientList × List Patient),
    (s.1.map (·.id)).Nodup → ((run_from s ops).1.map (·.id)).Nodup := by
  induction ops with
  | nil => intro s h; exact h
  | cons op rest ih =>
    intro s h
    exact ih (apply_op s.1 op, s.2 ++ inserted_by s.1 op) (ids_step_inv s.1 op h)

theorem orderedInsert_prioClass (c : Int) (x : Patient) : ∀ l : List Patient,
    prioClass c (List.orderedInsert prio_le x l) = prioClass c (x :: l) := by
  intro l
  induction l with
  | nil => rfl
  | cons b t ih =>
    rw [List.orderedInsert]
    split
    · rfl
    · next h =>
      have hlt : b.priority < x.priority := by
        unfold prio_le at h; omega
      simp only [prioClass, List.filter_cons] at ih ⊢
      rw [ih]
      by_cases hx : x.priority = c <;> by_cases hb : b.priority = c <;> simp [hx, hb]
      omega

theorem insertionSort_prioClass (c : Int) : ∀ l : List Patient,
    prioClass c (List.insertionSort prio_le l) = prioClass c l := by
  intro l
  induction l with
  | nil => rfl
  | cons x t ih =>
    rw [List.insertionSort, orderedInsert_prioClass]
    simp only [prioClass, List.filter_cons] at ih ⊢
    rw [ih]

theorem orderedInsert_prioSorted (x : Patient) : ∀ l : List Patient, PrioSorted l →
    PrioSorted (List.orderedInsert prio_le x l) := by
  intro l
  induction l with
  | nil => intro _; exact List.pairwise_singleton _ _
  | cons b t ih =>
    intro h
    rw [List.orderedInsert]
    unfold PrioSorted at h ih ⊢
    split
    · next hle =>
      refine List.Pairwise.cons ?_ h
      intro y hy
      have hxb : x.priority ≤ b.priority := hle
      rcases List.mem_cons.1 hy with e | e
      · rw [e]; exact hxb
      · have := List.rel_of_pairwise_cons h e
        omega
    · next hle =>
      have hbx : b.priority ≤ x.priority := by unfold prio_le at hle; omega
      refine List.Pairwise.cons ?_ (ih (List.Pairwise.of_cons h))
      intro y hy
      have hy2 : y ∈ x :: t := (List.perm_orderedInsert prio_le x t).subset hy
      rcases List.mem_cons.1 hy2 with e | e
      · rw [e]; exact hbx
      · exact List.rel_of_pairwise_cons h e

theorem insertionSort_prioSorted : ∀ l : List Patient,
    PrioSorted (List.insertionSort prio_le l) := by
  intro l
  induction l with
  | nil => exact List.Pairwise.nil
  | cons x t ih =>
    rw [List.insertionSort]
    exact orderedInsert_prioSorted x _ ih

/-- Inserting records with fresh ids and non-empty names, one after the other:
the store is in queue order and each priority class lists its records in
insertion order. -/
theorem foldl_add_record (ps : List Patient) : ∀ (acc : PatientList),
    (ps.map (·.id)).Nodup → (∀ p ∈ ps, p.name ≠ []) →
    (∀ p ∈ ps, ∀ q ∈ acc, q.id ≠ p.id) → PrioSorted acc →
    PrioSorted (ps.foldl add_record acc) ∧
    ∀ c, prioClass c (ps.foldl add_record acc) = prioClass c (acc ++ ps.map stored) := by
  induction ps with
  | nil => intro acc _ _ _ hs; exact ⟨hs, fun c => by simp⟩
  | cons x rest ih =>
    intro acc hnd hname hfresh _
    have hf : id_exists_linear acc x.id = false :=
      (id_exists_linear_false_iff acc x.id).2 (fun q hq => hfresh x (by simp) q hq)
    have hstep : add_record acc x = bubble_sort_by_priority (acc ++ [stored x]) := by
      unfold add_record stored
      rw [add_patient_fresh acc _ _ _ _ _ _ hf (hname x (by simp))]
    rw [List.foldl_cons, hstep]
    simp only [List.map_cons, List.nodup_cons] at hnd
    have hfresh2 : ∀ p ∈ rest, ∀ q ∈ bubble_sort_by_priority (acc ++ [stored x]), q.id ≠ p.id := by
      intro p hp q hq
      have hq2 : q ∈ acc ++ [stored x] := (bubble_sort_perm _).subset hq
      rcases List.mem_append.1 hq2 with h1 | h1
      · exact hfresh p (by simp [hp]) q h1
      · simp only [List.mem_singleton] at h1
        rw [h1]
        intro he
        apply hnd.1
        have : (stored x).id = x.id := rfl
        rw [this] at he
        rw [he]
        exact List.mem_map.2 ⟨p, hp, rfl⟩
    obtain ⟨hs, hc⟩ := ih (bubble_sort_by_priority (acc ++ [stored x])) hnd.2
      (fun p hp => hname p (by simp [hp])) hfresh2 (bubble_sort_sorted _)
    refine ⟨hs, fun c => ?_⟩
    rw [hc c, prioClass_append, bubble_sort_prioClass, ← prioClass_append]
    simp

/-! ### Name search -/

theorem starts_with_iff : ∀ (hay needle : List Nat),
    starts_with hay needle = true ↔ needle <+: hay := by
  intro hay needle
  induction needle generalizing hay with
  | nil => simp [starts_with]
  | cons n ns ih =>
    match hay with
    | [] => simp [starts_with]
    | h :: hs =>
      simp only [starts_with, Bool.and_eq_true, beq_iff_eq, ih hs, List.cons_prefix_cons]
      constructor
      · rintro ⟨rfl, h2⟩; exact ⟨rfl, h2⟩
      · rintro ⟨rfl, h2⟩; exact ⟨rfl, h2⟩

theorem strstr_isSome_iff : ∀ (hay needle : List Nat),
    (strstr hay needle).isSome = true ↔ needle <:+: hay := by
  intro hay needle
  induction hay with
  | nil =>
    simp only [strstr]
    split
    · next h => subst h; simp
    · next h => simp [h]
  | cons h hs ih =>
    simp only [strstr]
    rw [List.infix_cons_iff]
    split
    · next hp => simp [(starts_with_iff _ _).1 hp]
    · next hp =>
      have hnp : ¬ (needle <+: h :: hs) := fun hh => hp ((starts_with_iff _ _).2 hh)
      simp only [hnp, false_or]
      rw [← ih]
      cases strstr hs needle <;> rfl

theorem linear_search_from_spec (needle : List Nat) : ∀ (L : List Patient) (i : Int),
    (linear_search_from needle L i = -1 ∧ ∀ p ∈ L, ¬ name_matches needle p) ∨
    (∃ (k : Nat) (hk : k < L.length), linear_search_from needle L i = i + k ∧
      name_matches needle L[k] ∧ ∀ (j : Nat) (hj : j < k), ¬ name_matches needle (L[j])) := by
  intro L
  induction L with
  | nil => intro i; left; exact ⟨rfl, by simp⟩
  | cons p rest ih =>
    intro i
    simp only [linear_search_from]
    split
    · next hm =>
      right
      refine ⟨0, by simp, by simp, ?_, ?_⟩
      · exact (strstr_isSome_iff _ _).1 hm
      · intro j hj; omega
    · next hm =>
      have hnm : ¬ name_matches needle p := fun h => hm ((strstr_isSome_iff _ _).2 h)
      rcases ih (i + 1) with ⟨he, hno⟩ | ⟨k, hk, he, hmk, hmin⟩
      · left
        refine ⟨he, ?_⟩
        intro q hq
        rcases List.mem_cons.1 hq with e | e
        · rw [e]; exact hnm
        · exact hno q e
      · right
        refine ⟨k + 1, by simp; omega, ?_, by simpa using hmk, ?_⟩
        · rw [he]; push_cast; ring
        · intro j hj
          match j with
          | 0 => simpa using hnm
          | j + 1 => simpa using hmin j (by omega)

theorem takeWhile_all (f : Nat → Bool) (l : List Nat) (h : ∀ c ∈ l, f c = true) :
    l.takeWhile f = l := List.takeWhile_eq_self_iff.2 h

theorem takeWhile_stop (f : Nat → Bool) (l : List Nat) (x : Nat) (r : List Nat)
    (h : ∀ c ∈ l, f c = true) (hx : f x = false) : (l ++ x :: r).takeWhile f = l := by
  induction l with
  | nil => simp [List.takeWhile_cons, hx]
  | cons a t ih =>
    simp only [List.cons_append, List.takeWhile_cons, h a (by simp), if_true]
    rw [ih (fun c hc => h c (by simp [hc]))]

theorem dropWhile_stop (f : Nat → Bool) (l : List Nat) (x : Nat) (r : List Nat)
    (h : ∀ c ∈ l, f c = true) (hx : f x = false) : (l ++ x :: r).dropWhile f = x :: r := by
  induction l with
  | nil => simp [List.dropWhile_cons, hx]
  | cons a t ih =>
    simp only [List.cons_append, List.dropWhile_cons, h a (by simp), if_true]
    exact ih (fun c hc => h c (by simp [hc]))

theorem dropWhile_all (f : Nat → Bool) (l : List Nat) (h : ∀ c ∈ l, f c = true) :
    l.dropWhile f = [] := List.dropWhile_eq_nil_iff.2 h

theorem dropWhile_head (f : Nat → Bool) (x : Nat) (r : List Nat) (hx : f x = false) :
    (x :: r).dropWhile f = x :: r := by
  simp [List.dropWhile_cons, hx]

/-! ### Numbers as text -/

theorem fmt_nat_digits (n : Nat) : ∀ c ∈ fmt_nat n, 48 ≤ c ∧ c ≤ 57 := by
  intro c hc
  unfold fmt_nat at hc
  split at hc
  · simp at hc; omega
  · simp only [List.mem_map, List.mem_reverse] at hc
    obtain ⟨d, hd, rfl⟩ := hc
    have := Nat.digits_lt_base (by norm_num : 1 < 10) hd
    omega

theorem fmt_nat_isdigit (n : Nat) : ∀ c ∈ fmt_nat n, isdigit c = true := by
  intro c hc
  have := fmt_nat_digits n c hc
  simp [isdigit, this.1, this.2]

theorem fmt_nat_ne_nil (n : Nat) : fmt_nat n ≠ [] := by
  unfold fmt_nat
  split
  · simp
  · next h =>
    simp only [ne_eq, List.map_eq_nil_iff, List.reverse_eq_nil_iff]
    exact Nat.digits_ne_nil_iff_ne_zero.2 h

theorem digits_value_map (l : List Nat) :
    digits_value (l.reverse.map (· + 48)) = Nat.ofDigits 10 l := by
  unfold digits_value
  rw [List.foldl_map, List.foldl_reverse, Nat.ofDigits_eq_foldr]
  congr 1
  funext x y
  simp only [Nat.add_sub_cancel, Nat.cast_id]
  omega

theorem digits_value_fmt_nat (n : Nat) : digits_value (fmt_nat n) = n := by
  unfold fmt_nat
  split
  · next h => subst h; rfl
  · rw [digits_value_map, Nat.ofDigits_digits]

theorem fmt_nat_length (n k : Nat) (hk : 1 ≤ k) (h : n < 10 ^ k) : (fmt_nat n).length ≤ k := by
  unfold fmt_nat
  split
  · simpa using hk
  · next hn =>
    simp only [List.length_map, List.length_reverse]
    have h1 := Nat.base_pow_length_digits_le 10 n (by norm_num) hn
    have h2 : 10 ^ (Nat.digits 10 n).length < 10 ^ (k + 1) := by
      calc 10 ^ (Nat.digits 10 n).length ≤ 10 * n := h1
        _ < 10 * 10 ^ k := by omega
        _ = 10 ^ (k + 1) := by ring
    have := (Nat.pow_lt_pow_iff_right (by norm_num : 1 < 10)).1 h2
    omega

/-- The first character of a printed non-negative number is a digit. -/
theorem fmt_nat_cons (n : Nat) : ∃ d t, fmt_nat n = d :: t ∧ 48 ≤ d ∧ d ≤ 57 := by
  have hne := fmt_nat_ne_nil n
  match h : fmt_nat n with
  | [] => exact absurd h hne
  | d :: t =>
    have := fmt_nat_digits n d (by rw [h]; simp)
    exact ⟨d, t, rfl, this.1, this.2⟩

theorem fmt_int_chars (v : Int) : ∀ c ∈ fmt_int v, c = 45 ∨ (48 ≤ c ∧ c ≤ 57) := by
  intro c hc
  unfold fmt_int at hc
  split at hc
  · rcases List.mem_cons.1 hc with h | h
    · exact Or.inl h
    · exact Or.inr (fmt_nat_digits _ c h)
  · exact Or.inr (fmt_nat_digits _ c hc)

theorem fmt_int_ne_nil (v : Int) : fmt_int v ≠ [] := by
  unfold fmt_int
  split
  · simp
  · exact fmt_nat_ne_nil _

theorem fmt_int_nonneg (v : Int) (h : 0 ≤ v) : fmt_int v = fmt_nat v.toNat := by
  unfold fmt_int
  rw [if_neg (by omega)]

theorem fmt_int_length (v : Int) (k : Nat) (hk : 1 ≤ k) (h0 : 0 ≤ v) (h : v < 10 ^ k) :
    (fmt_int v).length ≤ k := by
  rw [fmt_int_nonneg v h0]
  apply fmt_nat_length _ _ hk
  have : ((v.toNat : Nat) : Int) < ((10 ^ k : Nat) : Int) := by
    rw [Int.toNat_of_nonneg h0]; push_cast; exact h
  exact_mod_cast this

theorem fmt_int_length_long (v : Int) (h1 : LONG_MIN ≤ v) (h2 : v ≤ LONG_MAX) :
    (fmt_int v).length ≤ 20 := by
  unfold LONG_MIN LONG_MAX at *
  unfold fmt_int
  split
  · have : (fmt_nat v.natAbs).length ≤ 19 := by
      apply fmt_nat_length _ _ (by norm_num)
      omega
    simp only [List.length_cons]; omega
  · have : (fmt_nat v.toNat).length ≤ 19 := by
      apply fmt_nat_length _ _ (by norm_num)
      omega
    omega

/-- Reading back, with `strtol`, a number followed by a character that is not
a digit (or by nothing). -/
theorem strtol_fmt_int (v : Int) (rest : List Nat) (h1 : LONG_MIN ≤ v) (h2 : v ≤ LONG_MAX)
    (hr : ∀ x t, rest = x :: t → isdigit x = false) :
    strtol (fmt_int v ++ rest) = v := by
  have htw : ∀ n : Nat, (fmt_nat n ++ rest).takeWhile isdigit = fmt_nat n := by
    intro n
    match rest, hr with
    | [], _ => rw [List.append_nil]; exact takeWhile_all _ _ (fmt_nat_isdigit n)
    | x :: t, hr => exact takeWhile_stop _ _ _ _ (fmt_nat_isdigit n) (hr x t rfl)
  unfold strtol fmt_int
  split
  · next hneg =>
    have e1 : (45 :: fmt_nat v.natAbs ++ rest).dropWhile isspace =
        45 :: (fmt_nat v.natAbs ++ rest) := dropWhile_head _ _ _ (by decide)
    simp only [e1, skip_sign, has_minus, htw, digits_value_fmt_nat, if_true]
    unfold clamp_long
    have : -((v.natAbs : Nat) : Int) = v := by omega
    rw [this, if_neg (by omega), if_neg (by omega)]
  · next hneg =>
    obtain ⟨d, t, hd, hd1, hd2⟩ := fmt_nat_cons v.toNat
    have e1 : (fmt_nat v.toNat ++ rest).dropWhile isspace = fmt_nat v.toNat ++ rest := by
      rw [hd]
      exact dropWhile_head _ _ _ (by simp [isspace]; omega)
    have e2 : skip_sign (fmt_nat v.toNat ++ rest) = fmt_nat v.toNat ++ rest := by
      rw [hd]
      unfold skip_sign
      split
      · next heq => simp at heq; omega
      · next heq => simp at heq; omega
      · rfl
    have e3 : has_minus (fmt_nat v.toNat ++ rest) = false := by
      rw [hd]
      unfold has_minus
      split
      · next heq => simp at heq; omega
      · rfl
    simp only [e1, e2, e3, htw, digits_value_fmt_nat]
    unfold clamp_long
    have : ((v.toNat : Nat) : Int) = v := Int.toNat_of_nonneg (by omega)
    simp only [Bool.false_eq_true, if_false]
    rw [this, if_neg (by omega), if_neg (by omega)]

theorem long_range_of_int (v : Int) (h1 : -(2 ^ 31) ≤ v) (h2 : v < 2 ^ 31) :
    LONG_MIN ≤ v ∧ v ≤ LONG_MAX := by
  unfold LONG_MIN LONG_MAX
  constructor <;> omega

theorem to_int32_id (v : Int) (h1 : -(2 ^ 31) ≤ v) (h2 : v < 2 ^ 31) : to_int32 v = v := by
  unfold to_int32
  omega

theorem atoi_fmt_int (v : Int) (h1 : -(2 ^ 31) ≤ v) (h2 : v < 2 ^ 31) :
    atoi (fmt_int v) = v := by
  unfold atoi
  have := strtol_fmt_int v [] (long_range_of_int v h1 h2).1 (long_range_of_int v h1 h2).2
    (by intro x t h; cases h)
  rw [List.append_nil] at this
  rw [this, to_int32_id v h1 h2]

theorem atol_fmt_int (v : Int) (h1 : LONG_MIN ≤ v) (h2 : v ≤ LONG_MAX) :
    atol (fmt_int v) = v := by
  unfold atol
  have := strtol_fmt_int v [] h1 h2 (by intro x t h; cases h)
  rw [List.append_nil] at this
  exact this

/-! ### Tokens and lines -/

theorem strtok_field (d : Nat) (tok rest : List Nat) (hne : tok ≠ []) (hd : ∀ c ∈ tok, c ≠ d) :
    strtok d (tok ++ d :: rest) = some (tok, rest) := by
  match tok, hne with
  | a :: t, _ =>
    have ha : a ≠ d := hd a (by simp)
    have hall : ∀ c ∈ a :: t, (fun c => c != d) c = true := by
      intro c hc; simpa using hd c hc
    unfold strtok
    have e1 : ((a :: t) ++ d :: rest).dropWhile (fun c => c == d) = (a :: t) ++ d :: rest :=
      dropWhile_head _ _ _ (by simpa using ha)
    simp only [e1]
    rw [if_neg (by simp), takeWhile_stop _ _ _ _ hall (by simp),
      dropWhile_stop _ _ _ _ hall (by simp)]
    rfl

theorem strtok_last (d : Nat) (tok : List Nat) (hne : tok ≠ []) (hd : ∀ c ∈ tok, c ≠ d) :
    strtok d tok = some (tok, []) := by
  match tok, hne with
  | a :: t, _ =>
    have ha : a ≠ d := hd a (by simp)
    have hall : ∀ c ∈ a :: t, (fun c => c != d) c = true := by
      intro c hc; simpa using hd c hc
    unfold strtok
    have e1 : (a :: t).dropWhile (fun c => c == d) = a :: t :=
      dropWhile_head _ _ _ (by simpa using ha)
    simp only [e1]
    rw [if_neg (by simp), takeWhile_all _ _ hall, dropWhile_all _ _ hall]
    rfl

/-- What `parse_line_to_patient` does on a line of six non-empty fields. -/
theorem parse_join_fields (t1 t2 t3 t4 t5 t6 : List Nat)
    (h1 : t1 ≠ [] ∧ ∀ c ∈ t1, c ≠ 124) (h2 : t2 ≠ [] ∧ ∀ c ∈ t2, c ≠ 124)
    (h3 : t3 ≠ [] ∧ ∀ c ∈ t3, c ≠ 124) (h4 : t4 ≠ [] ∧ ∀ c ∈ t4, c ≠ 124)
    (h5 : t5 ≠ [] ∧ ∀ c ∈ t5, c ≠ 124) (h6 : t6 ≠ [] ∧ ∀ c ∈ t6, c ≠ 10)
    (hlen : (join_fields t1 t2 t3 t4 t5 t6).length ≤ LINE_LEN - 1) :
    parse_line_to_patient (join_fields t1 t2 t3 t4 t5 t6) =
      if passes_checks (record_of_fields t1 t2 t3 t4 t5 t6) then
        some (record_of_fields t1 t2 t3 t4 t5 t6)
      else none := by
  unfold parse_line_to_patient
  rw [List.take_of_length_le hlen]
  unfold join_fields
  rw [strtok_field 124 t1 _ h1.1 h1.2]
  simp only
  rw [strtok_field 124 t2 _ h2.1 h2.2]
  simp only
  rw [strtok_field 124 t3 _ h3.1 h3.2]
  simp only
  rw [strtok_field 124 t4 _ h4.1 h4.2]
  simp only
  rw [strtok_field 124 t5 _ h5.1 h5.2]
  simp only
  rw [strtok_last 10 t6 h6.1 h6.2]
  simp only
  unfold passes_checks record_of_fields
  simp only
  by_cases hc : atoi t1 ≤ 0 ∨ atoi t3 < 0 ∨ atoi t3 > 120 ∨ atoi t4 < 1 ∨ atoi t4 > 5
  · rw [if_pos hc, if_neg (fun h => h.1 hc)]
  · rw [if_neg hc]
    by_cases hn : List.take (NAME_LEN - 1) t2 = []
    · rw [if_pos hn, if_neg (fun h => h.2 hn)]
    · rw [if_neg hn, if_pos ⟨hc, hn⟩]

theorem record_line_eq (p : Patient) :
    record_line p = join_fields (fmt_int p.id) p.name (fmt_int p.age) (fmt_int p.priority)
      p.diagnosis (fmt_int p.timestamp) ++ [10] := by
  unfold record_line join_fields
  simp [List.append_assoc]

theorem fmt_int_no (v : Int) (x : Nat) (hx : x ≠ 45) (hx2 : x < 48 ∨ 57 < x) :
    ∀ c ∈ fmt_int v, c ≠ x := by
  intro c hc he
  rcases fmt_int_chars v c hc with h | h
  · omega
  · omega

theorem valid_body_length (p : Patient) (hv : ValidRecord p) :
    (join_fields (fmt_int p.id) p.name (fmt_int p.age) (fmt_int p.priority)
      p.diagnosis (fmt_int p.timestamp)).length ≤ 164 := by
  obtain ⟨hid, hage, hpr, hname, hdiag, hts⟩ := hv
  have l1 := fmt_int_length p.id 6 (by norm_num) (by omega) (by omega)
  have l3 := fmt_int_length p.age 3 (by norm_num) (by omega) (by omega)
  have l4 := fmt_int_length p.priority 1 (by norm_num) (by omega) (by omega)
  have l6 := fmt_int_length_long p.timestamp hts.1 hts.2
  have l2 := hname.2.1
  have l5 := hdiag.2.1
  unfold NAME_LEN at l2
  unfold DIAG_LEN at l5
  unfold join_fields
  simp only [List.length_append, List.length_cons]
  omega

/-- A line written by `save_to_file` for a record of the data model is parsed
back to that record. -/
theorem parse_record_body (p : Patient) (hv : ValidRecord p) :
    parse_line_to_patient (join_fields (fmt_int p.id) p.name (fmt_int p.age)
      (fmt_int p.priority) p.diagnosis (fmt_int p.timestamp)) = some p := by
  have hlen := valid_body_length p hv
  obtain ⟨hid, hage, hpr, hname, hdiag, hts⟩ := hv
  rw [parse_join_fields _ _ _ _ _ _
    ⟨fmt_int_ne_nil _, fmt_int_no _ 124 (by norm_num) (by norm_num)⟩
    ⟨hname.1, fun c hc => (hname.2.2 c hc).2.2⟩
    ⟨fmt_int_ne_nil _, fmt_int_no _ 124 (by norm_num) (by norm_num)⟩
    ⟨fmt_int_ne_nil _, fmt_int_no _ 124 (by norm_num) (by norm_num)⟩
    ⟨hdiag.1, fun c hc => (hdiag.2.2 c hc).2.2⟩
    ⟨fmt_int_ne_nil _, fmt_int_no _ 10 (by norm_num) (by norm_num)⟩
    (by unfold LINE_LEN; omega)]
  have e : record_of_fields (fmt_int p.id) p.name (fmt_int p.age) (fmt_int p.priority)
      p.diagnosis (fmt_int p.timestamp) = p := by
    unfold record_of_fields
    rw [atoi_fmt_int p.id (by omega) (by omega), atoi_fmt_int p.age (by omega) (by omega),
      atoi_fmt_int p.priority (by omega) (by omega), atol_fmt_int p.timestamp hts.1 hts.2,
      List.take_of_length_le hname.2.1, List.take_of_length_le hdiag.2.1]
  rw [e, if_pos]
  unfold passes_checks
  exact ⟨by omega, hname.1⟩

theorem fgets_chars_line (l rest : List Nat) (hl : ∀ c ∈ l, c ≠ 10) :
    ∀ k, l.length < k → fgets_chars k (l ++ 10 :: rest) = (l ++ [10], rest) := by
  induction l with
  | nil =>
    intro k hk
    match k, hk with
    | k + 1, _ => simp [fgets_chars]
  | cons a t ih =>
    intro k hk
    match k, hk with
    | k + 1, hk =>
      have ha : a ≠ 10 := hl a (by simp)
      have e := ih (fun c hc => hl c (by simp [hc])) k (by simpa using hk)
      show fgets_chars (k + 1) (a :: (t ++ 10 :: rest)) = (a :: (t ++ [10]), rest)
      rw [fgets_chars, if_neg ha, e]

theorem body_chars (p : Patient) (hv : ValidRecord p) :
    ∀ c ∈ join_fields (fmt_int p.id) p.name (fmt_int p.age) (fmt_int p.priority)
      p.diagnosis (fmt_int p.timestamp), c ≠ 0 ∧ c ≠ 10 := by
  obtain ⟨_, _, _, hname, hdiag, _⟩ := hv
  intro c hc
  unfold join_fields at hc
  have hf : ∀ v : Int, c ∈ fmt_int v → c ≠ 0 ∧ c ≠ 10 := by
    intro v h
    rcases fmt_int_chars v c h with h | h <;> omega
  simp only [List.mem_append, List.mem_cons] at hc
  rcases hc with h | h | h | h | h | h | h | h | h | h | h
  · exact hf _ h
  · omega
  · exact ⟨(hname.2.2 c h).1, (hname.2.2 c h).2.1⟩
  · omega
  · exact hf _ h
  · omega
  · exact hf _ h
  · omega
  · exact ⟨(hdiag.2.2 c h).1, (hdiag.2.2 c h).2.1⟩
  · omega
  · exact hf _ h

/-- One iteration of the load loop on a line written by `save_to_file`. -/
theorem load_line (p : Patient) (hv : ValidRecord p) (rest : List Nat) :
    fgets LINE_LEN (record_line p ++ rest) = some (record_line p, rest) ∧
    parse_line_to_patient (trim_newline (c_str (record_line p))) = some p := by
  have hch := body_chars p hv
  have hlen := valid_body_length p hv
  constructor
  · unfold fgets
    rw [if_neg (by rw [record_line_eq]; simp)]
    rw [record_line_eq, List.append_assoc, List.singleton_append,
      fgets_chars_line _ rest (fun c hc => (hch c hc).2) _ (by unfold LINE_LEN; omega)]
  · have e1 : c_str (record_line p) = record_line p := by
      unfold c_str
      apply takeWhile_all
      intro c hc
      rw [record_line_eq] at hc
      rcases List.mem_append.1 hc with h | h
      · simpa using (hch c h).1
      · simp at h; simp [h]
    rw [e1, record_line_eq]
    unfold trim_newline
    rw [List.getLast?_concat, if_pos rfl, List.dropLast_concat]
    exact parse_record_body p hv

theorem load_loop_saved (L : List Patient) (hv : ∀ p ∈ L, ValidRecord p) :
    ∀ acc, load_loop L.length (save_records L) acc = acc ++ L := by
  induction L with
  | nil => intro acc; simp [load_loop]
  | cons p t ih =>
    intro acc
    obtain ⟨h1, h2⟩ := load_line p (hv p (by simp)) (save_records t)
    simp only [List.length_cons, save_records, load_loop, h1, h2]
    rw [ih (fun q hq => hv q (by simp [hq]))]
    simp

theorem save_records_head (L : List Patient) (hv : ∀ p ∈ L, ValidRecord p) :
    ∀ x t, save_records L = x :: t → 48 ≤ x ∧ x ≤ 57 := by
  intro x t h
  match L, hv with
  | [], _ => simp [save_records] at h
  | p :: rest, hv =>
    have hp := hv p (by simp)
    obtain ⟨d, u, hd, hd1, hd2⟩ := fmt_nat_cons p.id.toNat
    rw [save_records, record_line, fmt_int_nonneg p.id (by have := hp.1.1; omega), hd] at h
    simp only [List.cons_append, List.append_assoc] at h
    have := (List.cons.inj h).1
    omega

/-- The header read by `fscanf` from a file written by `save_to_file`. -/
theorem fscanf_count_saved (L : List Patient) (hv : ∀ p ∈ L, ValidRecord p)
    (hlen : L.length < 2 ^ 31) :
    fscanf_count (save_to_file L) = some ((L.length : Int), save_records L) := by
  unfold save_to_file
  rw [fmt_int_nonneg _ (by omega)]
  simp only [Int.toNat_ofNat, List.append_assoc, List.singleton_append]
  obtain ⟨d, t, hd, hd1, hd2⟩ := fmt_nat_cons L.length
  have e1 : (fmt_nat L.length ++ 10 :: save_records L).dropWhile isspace =
      fmt_nat L.length ++ 10 :: save_records L := by
    rw [hd]; exact dropWhile_head _ _ _ (by simp [isspace]; omega)
  have e2 : skip_sign (fmt_nat L.length ++ 10 :: save_records L) =
      fmt_nat L.length ++ 10 :: save_records L := by
    rw [hd]
    unfold skip_sign
    split
    · next heq => simp at heq; omega
    · next heq => simp at heq; omega
    · rfl
  have e3 : has_minus (fmt_nat L.length ++ 10 :: save_records L) = false := by
    rw [hd]
    unfold has_minus
    split
    · next heq => simp at heq; omega
    · rfl
  have e4 : (fmt_nat L.length ++ 10 :: save_records L).takeWhile isdigit = fmt_nat L.length :=
    takeWhile_stop _ _ _ _ (fmt_nat_isdigit _) (by decide)
  have e5 : (fmt_nat L.length ++ 10 :: save_records L).dropWhile isdigit =
      10 :: save_records L :=
    dropWhile_stop _ _ _ _ (fmt_nat_isdigit _) (by decide)
  have e6 : (10 :: save_records L).dropWhile isspace = save_records L := by
    rw [List.dropWhile_cons, if_pos (by decide)]
    match hs : save_records L with
    | [] => rfl
    | x :: u =>
      have := save_records_head L hv x u hs
      exact dropWhile_head _ _ _ (by simp [isspace]; omega)
  unfold fscanf_count
  simp only [e1, e2, e3, e4, e5, e6, digits_value_fmt_nat]
  rw [if_neg (fmt_nat_ne_nil _)]
  have hc : clamp_long (L.length : Int) = L.length := by
    unfold clamp_long LONG_MAX LONG_MIN
    rw [if_neg (by omega), if_neg (by omega)]
  simp only [Bool.false_eq_true, if_false, hc]
  rw [to_int32_id _ (by omega) (by omega)]

/-! ### Loading a file line by line -/

theorem load_iteration (b rest : List Nat) (hb : ∀ c ∈ b, c ≠ 0 ∧ c ≠ 10)
    (hlen : b.length < LINE_LEN - 1) :
    fgets LINE_LEN (b ++ 10 :: rest) = some (b ++ [10], rest) ∧
    trim_newline (c_str (b ++ [10])) = b := by
  constructor
  · unfold fgets
    rw [if_neg (by simp), fgets_chars_line _ rest (fun c hc => (hb c hc).2) _ hlen]
  · have e1 : c_str (b ++ [10]) = b ++ [10] := by
      unfold c_str
      apply takeWhile_all
      intro c hc
      rcases List.mem_append.1 hc with h | h
      · simpa using (hb c h).1
      · simp at h; simp [h]
    rw [e1]
    unfold trim_newline
    rw [List.getLast?_concat, if_pos rfl, List.dropLast_concat]

/-- The load loop on a well-formed body keeps, of the first `n` lines, those
that `parse_line_to_patient` accepts. -/
theorem load_loop_lines (lines : List (List Nat))
    (hl : ∀ b ∈ lines, (∀ c ∈ b, c ≠ 0 ∧ c ≠ 10) ∧ b.length < LINE_LEN - 1) :
    ∀ (n : Nat) (acc : List Patient), load_loop n (lines_text lines) acc =
      acc ++ (lines.take n).filterMap parse_line_to_patient := by
  induction lines with
  | nil =>
    intro n acc
    match n with
    | 0 => simp [load_loop]
    | n + 1 => simp [load_loop, lines_text, fgets]
  | cons b bs ih =>
    intro n acc
    match n with
    | 0 => simp [load_loop]
    | n + 1 =>
      obtain ⟨h1, h2⟩ := load_iteration b (lines_text bs) (hl b (by simp)).1 (hl b (by simp)).2
      simp only [lines_text, load_loop, h1, h2, List.take_succ_cons, List.filterMap_cons]
      cases hp : parse_line_to_patient b with
      | none => simp only [ih (fun c hc => hl c (by simp [hc]))]
      | some p => simp only [ih (fun c hc => hl c (by simp [hc])), List.append_assoc,
          List.singleton_append]

theorem fscanf_count_header (n : Nat) (rest : List Nat) (hn : n < 2 ^ 31)
    (hr : ∀ x t, rest = x :: t → isspace x = false) :
    fscanf_count (fmt_nat n ++ 10 :: rest) = some ((n : Int), rest) := by
  obtain ⟨d, t, hd, hd1, hd2⟩ := fmt_nat_cons n
  have e1 : (fmt_nat n ++ 10 :: rest).dropWhile isspace = fmt_nat n ++ 10 :: rest := by
    rw [hd]; exact dropWhile_head _ _ _ (by simp [isspace]; omega)
  have e2 : skip_sign (fmt_nat n ++ 10 :: rest) = fmt_nat n ++ 10 :: rest := by
    rw [hd]
    unfold skip_sign
    split
    · next heq => simp at heq; omega
    · next heq => simp at heq; omega
    · rfl
  have e3 : has_minus (fmt_nat n ++ 10 :: rest) = false := by
    rw [hd]
    unfold has_minus
    split
    · next heq => simp at heq; omega
    · rfl
  have e4 : (fmt_nat n ++ 10 :: rest).takeWhile isdigit = fmt_nat n :=
    takeWhile_stop _ _ _ _ (fmt_nat_isdigit _) (by decide)
  have e5 : (fmt_nat n ++ 10 :: rest).dropWhile isdigit = 10 :: rest :=
    dropWhile_stop _ _ _ _ (fmt_nat_isdigit _) (by decide)
  have e6 : (10 :: rest).dropWhile isspace = rest := by
    rw [List.dropWhile_cons, if_pos (by decide)]
    match rest, hr with
    | [], _ => rfl
    | x :: u, hr => exact dropWhile_head _ _ _ (hr x u rfl)
  unfold fscanf_count
  simp only [e1, e2, e3, e4, e5, e6, digits_value_fmt_nat]
  rw [if_neg (fmt_nat_ne_nil _)]
  have hc : clamp_long (n : Int) = n := by
    unfold clamp_long LONG_MAX LONG_MIN
    rw [if_neg (by omega), if_neg (by omega)]
  simp only [Bool.false_eq_true, if_false, hc]
  rw [to_int32_id _ (by omega) (by omega)]

/-- Loading a file with a well-formed header and body, whose first line does
not start with white space. -/
theorem load_file_text (L0 : PatientList) (n : Nat) (lines : List (List Nat))
    (hn : n < 2 ^ 31)
    (hl : ∀ b ∈ lines, (∀ c ∈ b, c ≠ 0 ∧ c ≠ 10) ∧ b.length < LINE_LEN - 1)
    (h0 : ∀ x t, lines_text lines = x :: t → isspace x = false) :
    load_from_file L0 (some (file_text n lines)) =
      (LoadOutcome.loaded
        (bubble_sort_by_priority ((lines.take n).filterMap parse_line_to_patient)).length,
       bubble_sort_by_priority ((lines.take n).filterMap parse_line_to_patient)) := by
  unfold load_from_file file_text
  simp only [fscanf_count_header n _ hn h0]
  rw [if_neg (by omega)]
  simp only [Int.toNat_ofNat, load_loop_lines lines hl, List.nil_append]

theorem atoi_no_number (t : List Nat) (h : no_number t) : atoi t = 0 := by
  unfold no_number at h
  unfold atoi strtol
  simp only [h]
  have : digits_value [] = 0 := rfl
  rw [this]
  have hz : clamp_long (if has_minus (List.dropWhile isspace t) = true then -((0 : Nat) : Int)
      else ((0 : Nat) : Int)) = 0 := by
    split <;> decide
  rw [hz]
  decide

theorem filterMap_record_body (ps : List Patient) (hv : ∀ p ∈ ps, ValidRecord p) :
    (ps.map record_body).filterMap parse_line_to_patient = ps := by
  induction ps with
  | nil => rfl
  | cons p t ih =>
    have hp : parse_line_to_patient (record_body p) = some p :=
      parse_record_body p (hv p (by simp))
    simp only [List.map_cons, List.filterMap_cons, hp, ih (fun q hq => hv q (by simp [hq]))]

theorem record_body_ok (p : Patient) (hv : ValidRecord p) :
    (∀ c ∈ record_body p, c ≠ 0 ∧ c ≠ 10) ∧ (record_body p).length < LINE_LEN - 1 := by
  refine ⟨body_chars p hv, ?_⟩
  have := valid_body_length p hv
  unfold record_body LINE_LEN
  omega

theorem record_body_head (p : Patient) (hv : ValidRecord p) :
    ∃ d t, record_body p = d :: t ∧ 48 ≤ d ∧ d ≤ 57 := by
  obtain ⟨d, u, hd, hd1, hd2⟩ := fmt_nat_cons p.id.toNat
  refine ⟨d, u ++ 124 :: (p.name ++ 124 :: (fmt_int p.age ++ 124 ::
    (fmt_int p.priority ++ 124 :: (p.diagnosis ++ 124 :: fmt_int p.timestamp)))), ?_, hd1, hd2⟩
  unfold record_body join_fields
  rw [fmt_int_nonneg p.id (by have := hv.1.1; omega), hd]
  rfl

/-! ### Lines with a non-numeric field -/

theorem bad_field_facts (t : List Nat) (h : BadNumberField t) :
    (t ≠ [] ∧ ∀ c ∈ t, c ≠ 124) ∧ (∀ c ∈ t, c ≠ 0 ∧ c ≠ 10) ∧ atoi t = 0 ∧ t.length ≤ 90 ∧
    ∃ x u, t = x :: u ∧ isspace x = false := by
  obtain ⟨hh, hv, hn, hl⟩ := h
  have hx : ∃ x u, t = x :: u ∧ isspace x = false := by
    match t, hh with
    | x :: u, hh => exact ⟨x, u, rfl, by simpa using hh⟩
  have hne : t ≠ [] := by
    obtain ⟨x, u, hxu, _⟩ := hx
    rw [hxu]; simp
  refine ⟨⟨hne, fun c hc => (hv c hc).2.2⟩,
    fun c hc => ⟨(hv c hc).1, (hv c hc).2.1⟩, atoi_no_number t hn, hl, hx⟩

theorem valid_field_facts (p : Patient) (hv : ValidRecord p) :
    (∀ v : Int, fmt_int v ≠ [] ∧ ∀ c ∈ fmt_int v, c ≠ 124) ∧
    (∀ v : Int, ∀ c ∈ fmt_int v, c ≠ 0 ∧ c ≠ 10) ∧
    (p.name ≠ [] ∧ ∀ c ∈ p.name, c ≠ 124) ∧ (∀ c ∈ p.name, c ≠ 0 ∧ c ≠ 10) ∧
    (p.diagnosis ≠ [] ∧ ∀ c ∈ p.diagnosis, c ≠ 124) ∧ (∀ c ∈ p.diagnosis, c ≠ 0 ∧ c ≠ 10) := by
  obtain ⟨_, _, _, hname, hdiag, _⟩ := hv
  refine ⟨fun v => ⟨fmt_int_ne_nil v, fmt_int_no v 124 (by norm_num) (by norm_num)⟩, ?_,
    ⟨hname.1, fun c hc => (hname.2.2 c hc).2.2⟩,
    fun c hc => ⟨(hname.2.2 c hc).1, (hname.2.2 c hc).2.1⟩,
    ⟨hdiag.1, fun c hc => (hdiag.2.2 c hc).2.2⟩,
    fun c hc => ⟨(hdiag.2.2 c hc).1, (hdiag.2.2 c hc).2.1⟩⟩
  intro v c hc
  rcases fmt_int_chars v c hc with h | h <;> omega

theorem valid_field_lengths (p : Patient) (hv : ValidRecord p) :
    (fmt_int p.id).length ≤ 6 ∧ p.name.length ≤ 49 ∧ (fmt_int p.age).length ≤ 3 ∧
    (fmt_int p.priority).length ≤ 1 ∧ p.diagnosis.length ≤ 79 ∧
    (fmt_int p.timestamp).length ≤ 20 := by
  obtain ⟨hid, hage, hpr, hname, hdiag, hts⟩ := hv
  exact ⟨fmt_int_length p.id 6 (by norm_num) (by omega) (by omega), hname.2.1,
    fmt_int_length p.age 3 (by norm_num) (by omega) (by omega),
    fmt_int_length p.priority 1 (by norm_num) (by omega) (by omega), hdiag.2.1,
    fmt_int_length_long p.timestamp hts.1 hts.2⟩

theorem join_fields_ok (t1 t2 t3 t4 t5 t6 : List Nat)
    (h1 : ∀ c ∈ t1, c ≠ 0 ∧ c ≠ 10) (h2 : ∀ c ∈ t2, c ≠ 0 ∧ c ≠ 10)
    (h3 : ∀ c ∈ t3, c ≠ 0 ∧ c ≠ 10) (h4 : ∀ c ∈ t4, c ≠ 0 ∧ c ≠ 10)
    (h5 : ∀ c ∈ t5, c ≠ 0 ∧ c ≠ 10) (h6 : ∀ c ∈ t6, c ≠ 0 ∧ c ≠ 10)
    (hlen : t1.length + t2.length + t3.length + t4.length + t5.length + t6.length ≤ 249) :
    (∀ c ∈ join_fields t1 t2 t3 t4 t5 t6, c ≠ 0 ∧ c ≠ 10) ∧
    (join_fields t1 t2 t3 t4 t5 t6).length < LINE_LEN - 1 := by
  constructor
  · intro c hc
    unfold join_fields at hc
    simp only [List.mem_append, List.mem_cons] at hc
    rcases hc with h | h | h | h | h | h | h | h | h | h | h
    · exact h1 c h
    · omega
    · exact h2 c h
    · omega
    · exact h3 c h
    · omega
    · exact h4 c h
    · omega
    · exact h5 c h
    · omega
    · exact h6 c h
  · unfold join_fields LINE_LEN
    simp only [List.length_append, List.length_cons]
    omega

/-- A line whose age field holds no number is accepted, with age 0. -/
theorem parse_bad_age (p : Patient) (hv : ValidRecord p) (bad : List Nat)
    (hb : BadNumberField bad) :
    parse_line_to_patient (body_with_age p bad) = some { p with age := 0 } := by
  obtain ⟨b1, _, b3, b4, _⟩ := bad_field_facts bad hb
  obtain ⟨f1, f2, n1, n2, d1, d2⟩ := valid_field_facts p hv
  obtain ⟨l1, l2, l3, l4, l5, l6⟩ := valid_field_lengths p hv
  have hv2 := hv
  obtain ⟨hid, hage, hpr, hname, hdiag, hts⟩ := hv
  unfold body_with_age
  rw [parse_join_fields _ _ _ _ _ _ (f1 _) n1 b1 (f1 _) d1
    ⟨fmt_int_ne_nil _, fmt_int_no _ 10 (by norm_num) (by norm_num)⟩
    (by unfold join_fields LINE_LEN; simp only [List.length_append, List.length_cons]; omega)]
  have e : record_of_fields (fmt_int p.id) p.name bad (fmt_int p.priority)
      p.diagnosis (fmt_int p.timestamp) = { p with age := 0 } := by
    unfold record_of_fields
    rw [atoi_fmt_int p.id (by omega) (by omega), b3,
      atoi_fmt_int p.priority (by omega) (by omega), atol_fmt_int p.timestamp hts.1 hts.2,
      List.take_of_length_le hname.2.1, List.take_of_length_le hdiag.2.1]
  rw [e, if_pos]
  unfold passes_checks
  exact ⟨by simp only; omega, hname.1⟩

/-- A line whose id field holds no number is rejected. -/
theorem parse_bad_id (p : Patient) (hv : ValidRecord p) (bad : List Nat)
    (hb : BadNumberField bad) :
    parse_line_to_patient (body_with_id p bad) = none := by
  obtain ⟨b1, _, b3, b4, _⟩ := bad_field_facts bad hb
  obtain ⟨f1, f2, n1, n2, d1, d2⟩ := valid_field_facts p hv
  obtain ⟨l1, l2, l3, l4, l5, l6⟩ := valid_field_lengths p hv
  unfold body_with_id
  rw [parse_join_fields _ _ _ _ _ _ b1 n1 (f1 _) (f1 _) d1
    ⟨fmt_int_ne_nil _, fmt_int_no _ 10 (by norm_num) (by norm_num)⟩
    (by unfold join_fields LINE_LEN; simp only [List.length_append, List.length_cons]; omega)]
  rw [if_neg]
  unfold passes_checks record_of_fields
  simp only [b3]
  intro h
  exact h.1 (Or.inl (le_refl _))

/-- A line whose priority field holds no number is rejected. -/
theorem parse_bad_priority (p : Patient) (hv : ValidRecord p) (bad : List Nat)
    (hb : BadNumberField bad) :
    parse_line_to_patient (body_with_priority p bad) = none := by
  obtain ⟨b1, _, b3, b4, _⟩ := bad_field_facts bad hb
  obtain ⟨f1, f2, n1, n2, d1, d2⟩ := valid_field_facts p hv
  obtain ⟨l1, l2, l3, l4, l5, l6⟩ := valid_field_lengths p hv
  unfold body_with_priority
  rw [parse_join_fields _ _ _ _ _ _ (f1 _) n1 (f1 _) b1 d1
    ⟨fmt_int_ne_nil _, fmt_int_no _ 10 (by norm_num) (by norm_num)⟩
    (by unfold join_fields LINE_LEN; simp only [List.length_append, List.length_cons]; omega)]
  rw [if_neg]
  unfold passes_checks record_of_fields
  simp only [b3]
  intro h
  exact h.1 (Or.inr (Or.inr (Or.inr (Or.inl (by norm_num)))))

theorem bad_body_ok (p : Patient) (hv : ValidRecord p) (bad : List Nat)
    (hb : BadNumberField bad) :
    ((∀ c ∈ body_with_id p bad, c ≠ 0 ∧ c ≠ 10) ∧ (body_with_id p bad).length < LINE_LEN - 1) ∧
    ((∀ c ∈ body_with_age p bad, c ≠ 0 ∧ c ≠ 10) ∧
      (body_with_age p bad).length < LINE_LEN - 1) ∧
    ((∀ c ∈ body_with_priority p bad, c ≠ 0 ∧ c ≠ 10) ∧
      (body_with_priority p bad).length < LINE_LEN - 1) := by
  obtain ⟨_, b2, _, b4, _⟩ := bad_field_facts bad hb
  obtain ⟨f1, f2, n1, n2, d1, d2⟩ := valid_field_facts p hv
  obtain ⟨l1, l2, l3, l4, l5, l6⟩ := valid_field_lengths p hv
  exact ⟨join_fields_ok _ _ _ _ _ _ b2 n2 (f2 _) (f2 _) d2 (f2 _) (by omega),
    join_fields_ok _ _ _ _ _ _ (f2 _) n2 b2 (f2 _) d2 (f2 _) (by omega),
    join_fields_ok _ _ _ _ _ _ (f2 _) n2 (f2 _) b2 d2 (f2 _) (by omega)⟩

theorem bad_body_head (p : Patient) (hv : ValidRecord p) (bad : List Nat)
    (hb : BadNumberField bad) :
    (∃ x t, body_with_id p bad = x :: t ∧ isspace x = false) ∧
    (∃ x t, body_with_age p bad = x :: t ∧ isspace x = false) ∧
    (∃ x t, body_with_priority p bad = x :: t ∧ isspace x = false) := by
  obtain ⟨_, _, _, _, x, u, hxu, hx⟩ := bad_field_facts bad hb
  obtain ⟨d, w, hd, hd1, hd2⟩ := fmt_nat_cons p.id.toNat
  have hdig : isspace d = false := by simp [isspace]; omega
  have hid : fmt_int p.id = d :: w := by
    rw [fmt_int_nonneg p.id (by have := hv.1.1; omega), hd]
  have hcons : ∀ (c : Nat) (a b : List Nat), ∃ t, (c :: a) ++ b = c :: t :=
    fun c a b => ⟨a ++ b, rfl⟩
  refine ⟨?_, ?_, ?_⟩
  · unfold body_with_id join_fields
    rw [hxu]
    obtain ⟨t, ht⟩ := hcons x u (124 :: (p.name ++ 124 :: (fmt_int p.age ++ 124 ::
      (fmt_int p.priority ++ 124 :: (p.diagnosis ++ 124 :: fmt_int p.timestamp)))))
    exact ⟨x, t, ht, hx⟩
  · unfold body_with_age join_fields
    rw [hid]
    obtain ⟨t, ht⟩ := hcons d w (124 :: (p.name ++ 124 :: (bad ++ 124 ::
      (fmt_int p.priority ++ 124 :: (p.diagnosis ++ 124 :: fmt_int p.timestamp)))))
    exact ⟨d, t, ht, hdig⟩
  · unfold body_with_priority join_fields
    rw [hid]
    obtain ⟨t, ht⟩ := hcons d w (124 :: (p.name ++ 124 :: (fmt_int p.age ++ 124 ::
      (bad ++ 124 :: (p.diagnosis ++ 124 :: fmt_int p.timestamp)))))
    exact ⟨d, t, ht, hdig⟩

/-- Loading a file whose lines are those of the records `pre`, one further
line `x` and those of the records `post`, under a header that counts them
all. -/
theorem load_with_line (L0 : PatientList) (pre post : List Patient) (x : List Nat)
    (hpre : ∀ q ∈ pre, ValidRecord q) (hpost : ∀ q ∈ post, ValidRecord q)
    (hx : (∀ c ∈ x, c ≠ 0 ∧ c ≠ 10) ∧ x.length < LINE_LEN - 1)
    (hx0 : ∃ c t, x = c :: t ∧ isspace c = false)
    (hn : pre.length + 1 + post.length < 2 ^ 31) :
    load_from_file L0 (some (file_text (pre.length + 1 + post.length)
      (pre.map record_body ++ [x] ++ post.map record_body))) =
      (LoadOutcome.loaded (bubble_sort_by_priority
          (pre ++ (parse_line_to_patient x).toList ++ post)).length,
        bubble_sort_by_priority (pre ++ (parse_line_to_patient x).toList ++ post)) := by
  have hl : ∀ b ∈ pre.map record_body ++ [x] ++ post.map record_body,
      (∀ c ∈ b, c ≠ 0 ∧ c ≠ 10) ∧ b.length < LINE_LEN - 1 := by
    intro b hb
    simp only [List.mem_append, List.mem_map, List.mem_singleton] at hb
    rcases hb with (⟨q, hq, rfl⟩ | rfl) | ⟨q, hq, rfl⟩
    · exact record_body_ok q (hpre q hq)
    · exact hx
    · exact record_body_ok q (hpost q hq)
  have h0 : ∀ c t, lines_text (pre.map record_body ++ [x] ++ post.map record_body) = c :: t →
      isspace c = false := by
    intro c t h
    match pre, hpre with
    | [], _ =>
      obtain ⟨c0, t0, hx1, hx2⟩ := hx0
      rw [hx1] at h
      simp only [List.map_nil, List.nil_append, List.singleton_append, lines_text,
        List.cons_append] at h
      rw [← (List.cons.inj h).1]; exact hx2
    | q :: qs, hpre =>
      obtain ⟨d, w, hd, hd1, hd2⟩ := record_body_head q (hpre q (by simp))
      simp only [List.map_cons, List.cons_append, lines_text] at h
      rw [hd] at h
      simp only [List.cons_append] at h
      rw [← (List.cons.inj h).1]
      simp [isspace]; omega
  rw [load_file_text L0 _ _ hn hl h0]
  have htake : (pre.map record_body ++ [x] ++ post.map record_body).take
      (pre.length + 1 + post.length) = pre.map record_body ++ [x] ++ post.map record_body :=
    List.take_of_length_le (by simp; omega)
  have hfm : (pre.map record_body ++ [x] ++ post.map record_body).filterMap
      parse_line_to_patient = pre ++ (parse_line_to_patient x).toList ++ post := by
    rw [List.filterMap_append, List.filterMap_append, filterMap_record_body pre hpre,
      filterMap_record_body post hpost]
    cases hpx : parse_line_to_patient x <;> simp [List.filterMap_cons, hpx]
  rw [htake, hfm]

/-! ### Statistics -/

theorem age_col_iff (age : Int) (h : 0 ≤ age) (b : Fin 4) :
    age_col age = b ↔ in_bracket b age := by
  unfold age_col in_bracket
  fin_cases b <;> (split_ifs <;> simp <;> omega)

theorem stats_step_cell (m : Fin 5 → Fin 4 → Nat) (r : Patient) (row : Fin 5) (b : Fin 4) :
    stats_step m r row b =
      m row b + if r.priority = (row : Int) + 1 ∧ age_col r.age = b then 1 else 0 := by
  unfold stats_step
  split
  · next h =>
    unfold stats_incr
    have hrow : (row = (⟨(r.priority - 1).toNat, by omega⟩ : Fin 5)) ↔
        r.priority = (row : Int) + 1 := by
      rw [Fin.ext_iff]
      simp only
      omega
    by_cases h1 : r.priority = (row : Int) + 1
    · by_cases h2 : age_col r.age = b
      · rw [if_pos ⟨hrow.2 h1, h2.symm⟩, if_pos ⟨h1, h2⟩]
      · rw [if_neg (fun hh => h2 hh.2.symm), if_neg (fun hh => h2 hh.2)]; rfl
    · rw [if_neg (fun hh => h1 (hrow.1 hh.1)), if_neg (fun hh => h1 hh.1)]; rfl
  · next h =>
    have : ¬ (r.priority = (row : Int) + 1 ∧ age_col r.age = b) := by
      intro hh
      have := row.isLt
      omega
    rw [if_neg this]; rfl

theorem foldl_stats_cell (L : List Patient) : ∀ (m : Fin 5 → Fin 4 → Nat) (row : Fin 5)
    (b : Fin 4), L.foldl stats_step m row b =
      m row b + L.countP (fun r => decide (r.priority = (row : Int) + 1 ∧ age_col r.age = b)) := by
  induction L with
  | nil => intro m row b; simp
  | cons r t ih =>
    intro m row b
    rw [List.foldl_cons, ih, stats_step_cell, List.countP_cons]
    by_cases hc : r.priority = (row : Int) + 1 ∧ age_col r.age = b
    · simp only [hc, and_self, if_true, decide_True]; omega
    · simp only [hc, if_false, decide_False, Bool.false_eq_true]; omega

theorem stats_incr_total (m : Fin 5 → Fin 4 → Nat) (row : Fin 5) (col : Fin 4) :
    stats_total (stats_incr m row col) = stats_total m + 1 := by
  unfold stats_total stats_incr
  have h : ∀ i j, (if i = row ∧ j = col then m i j + 1 else m i j) =
      m i j + (if i = row then (if j = col then 1 else 0) else 0) := by
    intro i j
    by_cases h1 : i = row <;> by_cases h2 : j = col <;> simp [h1, h2]
  simp only [h, Finset.sum_add_distrib]
  congr 1
  simp

theorem stats_step_total (m : Fin 5 → Fin 4 → Nat) (r : Patient)
    (h : 1 ≤ r.priority ∧ r.priority ≤ 5) :
    stats_total (stats_step m r) = stats_total m + 1 := by
  unfold stats_step
  rw [dif_pos h, stats_incr_total]

theorem stats_step_skip (m : Fin 5 → Fin 4 → Nat) (r : Patient)
    (h : ¬ (1 ≤ r.priority ∧ r.priority ≤ 5)) : stats_step m r = m := by
  unfold stats_step
  rw [dif_neg h]

theorem foldl_stats_total (L : List Patient) (h : ∀ r ∈ L, 1 ≤ r.priority ∧ r.priority ≤ 5) :
    ∀ m, stats_total (L.foldl stats_step m) = stats_total m + L.length := by
  induction L with
  | nil => intro m; simp
  | cons r t ih =>
    intro m
    rw [List.foldl_cons, ih (fun q hq => h q (by simp [hq])),
      stats_step_total m r (h r (by simp)), List.length_cons]
    omega

theorem foldl_stats_filter (L : List Patient) : ∀ m,
    L.foldl stats_step m =
      (L.filter (fun r => decide (1 ≤ r.priority ∧ r.priority ≤ 5))).foldl stats_step m := by
  induction L with
  | nil => intro m; rfl
  | cons r t ih =>
    intro m
    rw [List.foldl_cons, List.filter_cons]
    by_cases h : 1 ≤ r.priority ∧ r.priority ≤ 5
    · simp only [h, and_self, decide_True, if_true, List.foldl_cons]
      exact ih _
    · rw [stats_step_skip m r h]
      simp only [h, decide_False, Bool.false_eq_true, if_false]
      exact ih _

/-! ### The header and the load loop in general -/

theorem fscanf_count_none (content : List Nat) (h : no_number content) :
    fscanf_count content = none := by
  unfold no_number at h
  unfold fscanf_count
  simp only [h, if_true]

theorem fscanf_count_negative (ws rest : List Nat) (v : Int)
    (hws : ∀ c ∈ ws, isspace c = true) (hv : v < 0) (hv2 : -(2 ^ 31) ≤ v)
    (hr : ∀ x t, rest = x :: t → isdigit x = false) :
    fscanf_count (ws ++ fmt_int v ++ rest) = some (v, rest.dropWhile isspace) := by
  have hf : fmt_int v = 45 :: fmt_nat v.natAbs := by
    unfold fmt_int; rw [if_pos hv]
  have htw : (fmt_nat v.natAbs ++ rest).takeWhile isdigit = fmt_nat v.natAbs := by
    match rest, hr with
    | [], _ => rw [List.append_nil]; exact takeWhile_all _ _ (fmt_nat_isdigit _)
    | x :: t, hr => exact takeWhile_stop _ _ _ _ (fmt_nat_isdigit _) (hr x t rfl)
  have hdw : (fmt_nat v.natAbs ++ rest).dropWhile isdigit = rest := by
    match rest, hr with
    | [], _ => rw [List.append_nil]; exact dropWhile_all _ _ (fmt_nat_isdigit _)
    | x :: t, hr => exact dropWhile_stop _ _ _ _ (fmt_nat_isdigit _) (hr x t rfl)
  have e1 : (ws ++ fmt_int v ++ rest).dropWhile isspace = 45 :: (fmt_nat v.natAbs ++ rest) := by
    rw [hf, List.append_assoc]
    exact dropWhile_stop _ _ _ _ hws (by decide)
  unfold fscanf_count
  simp only [e1, skip_sign, has_minus, htw, hdw, digits_value_fmt_nat, if_true]
  rw [if_neg (fmt_nat_ne_nil _)]
  have hval : -((v.natAbs : Nat) : Int) = v := by omega
  have hc : clamp_long v = v := by
    unfold clamp_long LONG_MAX LONG_MIN
    rw [if_neg (by omega), if_neg (by omega)]
  rw [hval, hc, to_int32_id v hv2 (by omega)]

theorem no_number_of_no_leading (ws rest : List Nat) (hws : ∀ c ∈ ws, isspace c = true)
    (h : NoLeadingNumber rest) : no_number (ws ++ rest) := by
  unfold no_number
  rcases h with h | ⟨c, t, h, hc1, hc2, hc3, hc4⟩ | ⟨s, t, h, hs, ht⟩
  · rw [h, List.append_nil, dropWhile_all _ _ hws]
    rfl
  · rw [h, dropWhile_stop _ _ _ _ hws hc1]
    have e : skip_sign (c :: t) = c :: t := by
      unfold skip_sign
      split
      · next heq => exact absurd (List.cons.inj heq).1 hc3
      · next heq => exact absurd (List.cons.inj heq).1 hc4
      · rfl
    rw [e, List.takeWhile_cons, if_neg (by simp [hc2])]
  · have hsp : isspace s = false := by
      rcases hs with rfl | rfl <;> decide
    rw [h, dropWhile_stop _ _ _ _ hws hsp]
    have e : skip_sign (s :: t) = t := by
      rcases hs with rfl | rfl <;> rfl
    rw [e]
    match t, ht with
    | [], _ => rfl
    | d :: u, ht => rw [List.takeWhile_cons, if_neg (by simp [ht d u rfl])]

/-- The header read by `fscanf` from text that starts, after white space,
with a non-negative count: whatever follows the number is left in the stream,
less its leading white space. -/
theorem fscanf_count_nonneg (ws rest : List Nat) (n : Nat)
    (hws : ∀ c ∈ ws, isspace c = true) (hn : n < 2 ^ 31)
    (hr : ∀ x t, rest = x :: t → isdigit x = false) :
    fscanf_count (ws ++ fmt_nat n ++ rest) = some ((n : Int), rest.dropWhile isspace) := by
  obtain ⟨d, t, hd, hd1, hd2⟩ := fmt_nat_cons n
  have htw : (fmt_nat n ++ rest).takeWhile isdigit = fmt_nat n := by
    match rest, hr with
    | [], _ => rw [List.append_nil]; exact takeWhile_all _ _ (fmt_nat_isdigit _)
    | x :: u, hr => exact takeWhile_stop _ _ _ _ (fmt_nat_isdigit _) (hr x u rfl)
  have hdw : (fmt_nat n ++ rest).dropWhile isdigit = rest := by
    match rest, hr with
    | [], _ => rw [List.append_nil]; exact dropWhile_all _ _ (fmt_nat_isdigit _)
    | x :: u, hr => exact dropWhile_stop _ _ _ _ (fmt_nat_isdigit _) (hr x u rfl)
  have e1 : (ws ++ fmt_nat n ++ rest).dropWhile isspace = fmt_nat n ++ rest := by
    rw [List.append_assoc, hd]
    exact dropWhile_stop _ _ _ _ hws (by simp [isspace]; omega)
  have e2 : skip_sign (fmt_nat n ++ rest) = fmt_nat n ++ rest := by
    rw [hd]
    unfold skip_sign
    split
    · next heq => simp at heq; omega
    · next heq => simp at heq; omega
    · rfl
  have e3 : has_minus (fmt_nat n ++ rest) = false := by
    rw [hd]
    unfold has_minus
    split
    · next heq => simp at heq; omega
    · rfl
  unfold fscanf_count
  simp only [e1, e2, e3, htw, hdw, digits_value_fmt_nat]
  rw [if_neg (fmt_nat_ne_nil _)]
  have hc : clamp_long (n : Int) = n := by
    unfold clamp_long LONG_MAX LONG_MIN
    rw [if_neg (by omega), if_neg (by omega)]
  simp only [Bool.false_eq_true, if_false, hc]
  rw [to_int32_id _ (by omega) (by omega)]

theorem load_loop_reads : ∀ (n : Nat) (s : List Nat) (acc : List Patient),
    load_loop n s acc = acc ++ (read_lines n s).filterMap parse_line_to_patient := by
  intro n
  induction n with
  | zero => intro s acc; simp [load_loop, read_lines]
  | succ n ih =>
    intro s acc
    unfold load_loop read_lines
    cases hf : fgets LINE_LEN s with
    | none => simp
    | some lr =>
      obtain ⟨line, rest⟩ := lr
      simp only [List.filterMap_cons]
      cases hp : parse_line_to_patient (trim_newline (c_str line)) with
      | none => simp only [ih]
      | some p => simp only [ih, List.append_assoc, List.singleton_append]

theorem read_lines_length : ∀ (n : Nat) (s : List Nat), (read_lines n s).length ≤ n := by
  intro n
  induction n with
  | zero => intro s; simp [read_lines]
  | succ n ih =>
    intro s
    unfold read_lines
    cases fgets LINE_LEN s with
    | none => simp
    | some lr =>
      simp only [List.length_cons]
      have := ih lr.2
      omega

/-- What `load_from_file` does on a file with a valid header: the store
becomes the bubble-sorted list of the records accepted among the first `n`
reads, whatever it held before. -/
theorem load_valid_header (L : PatientList) (content rest : List Nat) (n : Int)
    (hh : fscanf_count content = some (n, rest)) (hn : 0 ≤ n) :
    load_from_file L (some content) =
      (LoadOutcome.loaded
        (bubble_sort_by_priority
          ((read_lines n.toNat rest).filterMap parse_line_to_patient)).length,
        bubble_sort_by_priority ((read_lines n.toNat rest).filterMap parse_line_to_patient)) := by
  unfold load_from_file
  simp only [hh]
  rw [if_neg (by omega)]
  simp only [load_loop_reads, List.nil_append]

theorem filterMap_length_countP (ls : List (List Nat)) :
    (ls.filterMap parse_line_to_patient).length = ls.countP accepts := by
  induction ls with
  | nil => rfl
  | cons l t ih =>
    rw [List.filterMap_cons, List.countP_cons]
    unfold accepts at ih ⊢
    cases hp : parse_line_to_patient l with
    | none => simp [ih]
    | some p => simp [ih]

theorem read_lines_text (lines : List (List Nat))
    (hl : ∀ b ∈ lines, (∀ c ∈ b, c ≠ 0 ∧ c ≠ 10) ∧ b.length < LINE_LEN - 1) :
    ∀ n, read_lines n (lines_text lines) = lines.take n := by
  induction lines with
  | nil =>
    intro n
    match n with
    | 0 => rfl
    | n + 1 => simp [read_lines, lines_text, fgets]
  | cons b bs ih =>
    intro n
    match n with
    | 0 => rfl
    | n + 1 =>
      obtain ⟨h1, h2⟩ := load_iteration b (lines_text bs) (hl b (by simp)).1 (hl b (by simp)).2
      simp only [lines_text, read_lines, h1, h2, List.take_succ_cons,
        ih (fun c hc => hl c (by simp [hc]))]

theorem lines_text_head (b : List Nat) (X Y : List Nat) (x : Nat) (t : List Nat)
    (h : b ++ 10 :: X = x :: t) : ∃ u, b ++ 10 :: Y = x :: u := by
  match b, h with
  | [], h => exact ⟨Y, by rw [← (List.cons.inj h).1]; rfl⟩
  | c :: cs, h => exact ⟨cs ++ 10 :: Y, by rw [← (List.cons.inj h).1]; rfl⟩

theorem lines_text_take_head (lines : List (List Nat)) (k : Nat)
    (h0 : ∀ x t, lines_text lines = x :: t → isspace x = false) :
    ∀ x t, lines_text (lines.take k) = x :: t → isspace x = false := by
  intro x t h
  match k, lines, h with
  | 0, _, h => simp [lines_text] at h
  | _ + 1, [], h => simp [lines_text] at h
  | k + 1, b :: bs, h =>
    simp only [List.take_succ_cons, lines_text] at h
    obtain ⟨u, hu⟩ := lines_text_head b _ (lines_text bs) x t h
    exact h0 x u (by simpa [lines_text] using hu)

/-- Loading a well-formed file text: the count and the store come from the
first `k` lines. -/
theorem load_file_text_count (L : PatientList) (k : Nat) (lines : List (List Nat))
    (hk : k < 2 ^ 31)
    (hl : ∀ b ∈ lines, (∀ c ∈ b, c ≠ 0 ∧ c ≠ 10) ∧ b.length < LINE_LEN - 1)
    (h0 : ∀ x t, lines_text lines = x :: t → isspace x = false) :
    (load_from_file L (some (file_text k lines))).1 =
      LoadOutcome.loaded ((lines.take k).countP accepts) ∧
    load_from_file L (some (file_text k lines)) =
      load_from_file L (some (file_text k (lines.take k))) := by
  have hl2 : ∀ b ∈ lines.take k, (∀ c ∈ b, c ≠ 0 ∧ c ≠ 10) ∧ b.length < LINE_LEN - 1 :=
    fun b hb => hl b (List.mem_of_mem_take hb)
  rw [load_file_text L k lines hk hl h0,
    load_file_text L k (lines.take k) hk hl2 (lines_text_take_head lines k h0)]
  simp only [bubble_sort_length, filterMap_length_countP, List.take_take, min_self]
  exact ⟨trivial, trivial⟩

/-! ### Accepted lines -/

theorem strtok_some (d : Nat) (s tok r : List Nat) (h : strtok d s = some (tok, r)) :
    tok ≠ [] ∧ (r ≠ [] → r.count d + 1 ≤ s.count d) := by
  unfold strtok at h
  simp only at h
  split at h
  · cases h
  · next hne =>
    injection h with h
    injection h with h1 h2
    have hsuf : (s.dropWhile (fun c => c == d)).count d ≤ s.count d :=
      (List.dropWhile_suffix _).sublist.count_le d
    have hsplit := List.takeWhile_append_dropWhile (fun c => c != d)
      (s.dropWhile (fun c => c == d))
    constructor
    · rw [← h1]
      match hs : s.dropWhile (fun c => c == d), hne with
      | x :: u, _ =>
        have hx : ¬ ((fun c => c == d) x = true) := by
          have := List.head_dropWhile_not (fun c => c == d) s (by rw [hs]; simp)
          simpa [hs] using this
        have hx2 : (x != d) = true := by simpa using hx
        rw [List.takeWhile_cons, if_pos hx2]
        simp
    · intro hr
      match hd : (s.dropWhile (fun c => c == d)).dropWhile (fun c => c != d) with
      | [] => rw [hd] at h2; exact absurd h2.symm hr
      | y :: u =>
        rw [hd] at h2
        have hy : y = d := by
          have := List.head_dropWhile_not (fun c => c != d)
            (s.dropWhile (fun c => c == d)) (by rw [hd]; simp)
          simpa [hd] using this
        have hcount : (s.dropWhile (fun c => c == d)).count d =
            (List.takeWhile (fun c => c != d) (s.dropWhile (fun c => c == d))).count d +
              (y :: u).count d := by
          rw [← hd, ← List.count_append, hsplit]
        rw [hy, List.count_cons_self] at hcount
        have : r = u := by rw [← h2]; rfl
        rw [this]
        omega

theorem strtok_some_ne_nil (d : Nat) (s tok r : List Nat) (h : strtok d s = some (tok, r)) :
    s ≠ [] := by
  intro hs
  rw [hs] at h
  simp [strtok] at h

/-- An accepted line holds at least five delimiters and yields a record
within the ranges. -/
theorem parse_some (line : List Nat) (p : Patient) (h : parse_line_to_patient line = some p) :
    5 ≤ line.count 124 ∧ InRange p := by
  unfold parse_line_to_patient at h
  cases h1 : strtok 124 (line.take (LINE_LEN - 1)) with
  | none => simp [h1] at h
  | some x1 =>
    obtain ⟨tok1, r1⟩ := x1
    simp only [h1] at h
    cases h2 : strtok 124 r1 with
    | none => simp [h2] at h
    | some x2 =>
      obtain ⟨tok2, r2⟩ := x2
      simp only [h2] at h
      cases h3 : strtok 124 r2 with
      | none => simp [h3] at h
      | some x3 =>
        obtain ⟨tok3, r3⟩ := x3
        simp only [h3] at h
        cases h4 : strtok 124 r3 with
        | none => simp [h4] at h
        | some x4 =>
          obtain ⟨tok4, r4⟩ := x4
          simp only [h4] at h
          cases h5 : strtok 124 r4 with
          | none => simp [h5] at h
          | some x5 =>
            obtain ⟨tok5, r5⟩ := x5
            simp only [h5] at h
            cases h6 : strtok 10 r5 with
            | none => simp [h6] at h
            | some x6 =>
              obtain ⟨tok6, r6⟩ := x6
              simp only [h6] at h
              constructor
              · have c1 := (strtok_some 124 _ _ _ h1).2 (strtok_some_ne_nil _ _ _ _ h2)
                have c2 := (strtok_some 124 _ _ _ h2).2 (strtok_some_ne_nil _ _ _ _ h3)
                have c3 := (strtok_some 124 _ _ _ h3).2 (strtok_some_ne_nil _ _ _ _ h4)
                have c4 := (strtok_some 124 _ _ _ h4).2 (strtok_some_ne_nil _ _ _ _ h5)
                have c5 := (strtok_some 124 _ _ _ h5).2 (strtok_some_ne_nil _ _ _ _ h6)
                have c0 : (line.take (LINE_LEN - 1)).count 124 ≤ line.count 124 :=
                  (List.take_sublist _ _).count_le 124
                omega
              · split at h
                · cases h
                · next hc =>
                  split at h
                  · cases h
                  · next hn =>
                    injection h with h
                    rw [← h]
                    unfold InRange
                    simp only at hc hn ⊢
                    refine ⟨by omega, ⟨by omega, by omega⟩, ⟨by omega, by omega⟩, hn⟩

/-! ### Stability of the merge sort, and the order after an ID search -/

theorem sort_by_id_idClass (L : PatientList) (c : Int) :
    idClass c (sort_by_id_for_binary L) = idClass c L := by
  rw [sort_by_id_eq_mergeSort]
  have hsorted : (idClass c L).Pairwise (fun a b => le_id a b = true) := by
    unfold idClass
    rw [List.pairwise_iff_forall_sublist]
    intro x y hxy
    have hx : x ∈ L.filter (fun x => decide (x.id = c)) := hxy.subset (by simp)
    have hy : y ∈ L.filter (fun x => decide (x.id = c)) := hxy.subset (by simp)
    have hx2 := (List.mem_filter.1 hx).2
    have hy2 := (List.mem_filter.1 hy).2
    unfold le_id
    simp only [decide_eq_true_eq] at hx2 hy2 ⊢
    omega
  have hsub : (idClass c L).Sublist (L.mergeSort le_id) :=
    List.sublist_mergeSort le_id_trans le_id_total hsorted (List.filter_sublist L)
  have hsub2 : (idClass c L).Sublist (idClass c (L.mergeSort le_id)) := by
    have := List.Sublist.filter (fun x => decide (x.id = c)) hsub
    unfold idClass at this ⊢
    simpa [List.filter_filter] using this
  have hlen : (idClass c (L.mergeSort le_id)).length = (idClass c L).length := by
    unfold idClass
    exact ((List.mergeSort_perm L le_id).filter _).length_eq
  exact (hsub2.eq_of_length hlen.symm).symm

theorem idSorted_strict (l : List Patient) (hs : IdSorted l) (hn : (l.map (·.id)).Nodup) :
    l.Pairwise (fun x y => x.id < y.id) := by
  unfold IdSorted at hs
  unfold List.Nodup at hn
  rw [List.pairwise_map] at hn
  refine (hs.and hn).imp ?_
  intro a b h
  have := h.1
  have := h.2
  omega

theorem find_by_id_tie_order (L : PatientList) (id : Int) :
    (find_by_id L id).2.Pairwise PrioThenId := by
  rw [find_by_id_store, List.pairwise_iff_forall_sublist]
  intro a b hab
  have hps := bubble_sort_sorted (sort_by_id_for_binary L)
  unfold PrioSorted at hps
  have hle : a.priority ≤ b.priority := (List.pairwise_iff_forall_sublist.1 hps) hab
  unfold PrioThenId
  by_cases heq : a.priority = b.priority
  · right
    refine ⟨heq, ?_⟩
    have hcls := bubble_sort_prioClass (sort_by_id_for_binary L) a.priority
    have hsub : [a, b].Sublist (prioClass a.priority (bubble_sort_by_priority
        (sort_by_id_for_binary L))) := by
      have := List.Sublist.filter (fun x => decide (x.priority = a.priority)) hab
      simpa [prioClass, heq] using this
    rw [hcls] at hsub
    have hsub2 : [a, b].Sublist (sort_by_id_for_binary L) :=
      hsub.trans (List.filter_sublist _)
    have hid := sort_by_id_sorted L
    unfold IdSorted at hid
    exact (List.pairwise_iff_forall_sublist.1 hid) hsub2
  · left; omega

theorem binary_search_in_bounds (a : List Patient) (id : Int) (n : Nat) :
    ∀ (lo hi : Int), (hi + 1 - lo).toNat = n → 0 ≤ lo → hi < a.length →
    ∃ r : Int, binary_search_loop a id lo hi = some r ∧ (r = -1 ∨ (0 ≤ r ∧ r < a.length)) := by
  induction n using Nat.strong_induction_on with
  | _ n ih =>
    intro lo hi hn hlo hhi
    rw [binary_search_loop]
    by_cases hc : lo ≤ hi
    · rw [if_pos hc]
      simp only
      have hmid0 : ¬ (lo + (hi - lo) / 2 < 0) := by omega
      rw [if_neg hmid0]
      have hmlt : (lo + (hi - lo) / 2).toNat < a.length := by omega
      rw [List.getElem?_eq_getElem hmlt]
      simp only
      by_cases he : a[(lo + (hi - lo) / 2).toNat].id = id
      · rw [if_pos he]
        exact ⟨_, rfl, Or.inr ⟨by omega, by omega⟩⟩
      · rw [if_neg he]
        by_cases hl : a[(lo + (hi - lo) / 2).toNat].id < id
        · rw [if_pos hl]
          exact ih _ (by omega) (lo + (hi - lo) / 2 + 1) hi rfl (by omega) hhi
        · rw [if_neg hl]
          exact ih _ (by omega) lo (lo + (hi - lo) / 2 - 1) rfl hlo (by omega)
    · rw [if_neg hc]
      exact ⟨-1, rfl, Or.inl rfl⟩

/-! ## The claims -/

/-- C1.  In every session of inserts (`add_patient`) and serves (`serve_next`)
started on the empty store, the store is in non-decreasing priority order, and
for every priority the records of that priority stand in the store in the
order in which they were inserted (they form a subsequence of the insertion
log). -/
theorem priority_order_invariant (ops : List Op) (hq : ∀ op ∈ ops, op.isQueueOp = true) :
    PrioSorted (run ops).1 ∧
    ∀ c, (prioClass c (run ops).1).Sublist (prioClass c (run ops).2) :=
  run_from_queue_inv ops ([], []) hq List.Pairwise.nil (fun _ => List.Sublist.refl _)

theorem priority_order_invariant_witness :
    (run [Op.add 10 [65] 30 3 [66] 0, Op.add 11 [65] 30 1 [] 1, Op.serve,
      Op.add 12 [65] 30 1 [66] 2]).1.map (·.id) = [12, 10] ∧
    PrioSorted (run [Op.add 10 [65] 30 3 [66] 0, Op.add 11 [65] 30 1 [] 1, Op.serve,
      Op.add 12 [65] 30 1 [66] 2]).1 :=
  ⟨by decide,
   (priority_order_invariant [Op.add 10 [65] 30 3 [66] 0, Op.add 11 [65] 30 1 [] 1, Op.serve,
      Op.add 12 [65] 30 1 [66] 2] (by decide)).1⟩

/-- C2.  Insert records with pairwise distinct ids (and non-empty names) into
the empty store, then call `serve_next` once per record: the records served
are the inserted records stably sorted by ascending priority (insertion sort
on the priority key, which keeps equal priorities in insertion order), so the
served ids come out in that order, and the store ends empty. -/
theorem serve_order (ps : List Patient) (hid : (ps.map (·.id)).Nodup)
    (hname : ∀ p ∈ ps, p.name ≠ []) :
    (serve_times ps.length (ps.foldl add_record [])).1 =
      List.insertionSort prio_le (ps.map stored) ∧
    (serve_times ps.length (ps.foldl add_record [])).1.map (·.id) =
      (List.insertionSort prio_le (ps.map stored)).map (·.id) ∧
    (serve_times ps.length (ps.foldl add_record [])).2 = [] := by
  obtain ⟨hs, hc⟩ := foldl_add_record ps [] hid hname (by simp) List.Pairwise.nil
  have he : ps.foldl add_record [] = List.insertionSort prio_le (ps.map stored) := by
    refine prioSorted_ext _ _ hs (insertionSort_prioSorted _) (fun c => ?_)
    rw [hc c, insertionSort_prioClass]
    simp
  have hlen : ps.length = (ps.foldl add_record []).length := by
    rw [he, List.length_insertionSort, List.length_map]
  rw [hlen, serve_times_all, ← he]
  exact ⟨rfl, rfl, rfl⟩

theorem serve_order_witness :
    (serve_times 4 ([(⟨10, [65], 30, 3, [66], 0⟩ : Patient), ⟨11, [65], 30, 1, [66], 0⟩,
      ⟨12, [65], 30, 2, [66], 0⟩, ⟨13, [65], 30, 1, [66], 0⟩].foldl add_record [])).1.map (·.id)
      = [11, 13, 12, 10] := by
  have h := (serve_order [(⟨10, [65], 30, 3, [66], 0⟩ : Patient), ⟨11, [65], 30, 1, [66], 0⟩,
      ⟨12, [65], 30, 2, [66], 0⟩, ⟨13, [65], 30, 1, [66], 0⟩] (by decide) (by decide)).2.1
  simp only [List.length_cons, List.length_nil] at h
  rw [h]
  decide

/-- C3 (the code departs from the claim).  Insert id 2 and then id 1, both
with priority 1: the store is `[2, 1]`.  An ID search (sort by id, binary
search, bubble sort by priority) then leaves the store as `[1, 2]`: the two
records of equal priority have changed places, and the next serve takes the
later arrival first. -/
theorem find_by_id_reorders_ties :
    (run [Op.add 2 [65] 30 1 [66] 100, Op.add 1 [67] 40 1 [68] 200]).1.map (·.id) = [2, 1] ∧
    (find_by_id (run [Op.add 2 [65] 30 1 [66] 100, Op.add 1 [67] 40 1 [68] 200]).1 2).2.map
      (·.id) = [1, 2] ∧
    (find_by_id (run [Op.add 2 [65] 30 1 [66] 100, Op.add 1 [67] 40 1 [68] 200]).1 2).2 ≠
      (run [Op.add 2 [65] 30 1 [66] 100, Op.add 1 [67] 40 1 [68] 200]).1 := by
  have hrun : (run [Op.add 2 [65] 30 1 [66] 100, Op.add 1 [67] 40 1 [68] 200]).1 =
      [⟨2, [65], 30, 1, [66], 100⟩, ⟨1, [67], 40, 1, [68], 200⟩] := by decide
  have hfind : (find_by_id [(⟨2, [65], 30, 1, [66], 100⟩ : Patient),
      ⟨1, [67], 40, 1, [68], 200⟩] 2).2 =
      [⟨1, [67], 40, 1, [68], 200⟩, ⟨2, [65], 30, 1, [66], 100⟩] := by
    rw [find_by_id_store, sort_by_id_eq_mergeSort]
    simp [List.mergeSort, List.merge, le_id]
    decide
  rw [hrun, hfind]
  decide

/-- C4.  Round trip: for a store in priority order whose records satisfy the
data model (id 1..999999, age 0..120, priority 1..5, non-empty name and
diagnosis within their buffers, free of `|`, newline and NUL; timestamp a C
`long`) and whose size is an `int`, loading the text written by `save_to_file`
into a fresh store reports as many records as were saved and yields the same
records, field for field, in the same order. -/
theorem save_load_round_trip (L : PatientList) (hs : PrioSorted L)
    (hv : ∀ p ∈ L, ValidRecord p) (hlen : L.length < 2 ^ 31) :
    load_from_file [] (some (save_to_file L)) = (LoadOutcome.loaded L.length, L) := by
  unfold load_from_file
  simp only [fscanf_count_saved L hv hlen]
  rw [if_neg (by omega)]
  simp only [Int.toNat_ofNat, load_loop_saved L hv [], List.nil_append,
    bubble_sort_of_sorted L hs]

theorem save_load_round_trip_witness :
    load_from_file [] (some (save_to_file
      [⟨11, cstr "Ann Lee", 30, 1, cstr "flu", 1700000000⟩,
       ⟨10, cstr "Bob", 0, 1, cstr "N/A", -5⟩,
       ⟨999999, cstr "Cy", 120, 5, cstr "cold", 0⟩])) =
      (LoadOutcome.loaded 3,
        [⟨11, cstr "Ann Lee", 30, 1, cstr "flu", 1700000000⟩,
         ⟨10, cstr "Bob", 0, 1, cstr "N/A", -5⟩,
         ⟨999999, cstr "Cy", 120, 5, cstr "cold", 0⟩]) :=
  save_load_round_trip
    [⟨11, cstr "Ann Lee", 30, 1, cstr "flu", 1700000000⟩,
     ⟨10, cstr "Bob", 0, 1, cstr "N/A", -5⟩,
     ⟨999999, cstr "Cy", 120, 5, cstr "cold", 0⟩]
    (by unfold PrioSorted; decide) (by decide) (by decide)

/-- C6.  In every session of inserts, serves and ID searches started on the
empty store, no two records of the store share an id. -/
theorem ids_unique (ops : List Op) : ((run ops).1.map (·.id)).Nodup :=
  run_from_ids_inv ops ([], []) List.nodup_nil

/-- C7.  When some record of the store already has the id typed, `add_patient`
reports a duplicate id and returns the store as it was: same records, same
order, same count. -/
theorem add_patient_duplicate (L : PatientList) (id : Int) (name : List Nat)
    (age priority : Int) (diagnosis : List Nat) (now : Int) (h : ∃ q ∈ L, q.id = id) :
    add_patient L id name age priority diagnosis now = (AddOutcome.duplicateId, L) ∧
    (add_patient L id name age priority diagnosis now).2.length = L.length := by
  have he : add_patient L id name age priority diagnosis now = (AddOutcome.duplicateId, L) := by
    unfold add_patient
    rw [if_pos ((id_exists_linear_iff L id).2 h)]
  rw [he]
  exact ⟨rfl, rfl⟩

theorem add_patient_duplicate_witness :
    add_patient [⟨7, [65], 30, 2, [66], 0⟩, ⟨9, [67], 41, 1, [68], 5⟩] 9 [69] 50 3 [70] 8 =
      (AddOutcome.duplicateId, [⟨7, [65], 30, 2, [66], 0⟩, ⟨9, [67], 41, 1, [68], 5⟩]) :=
  (add_patient_duplicate [⟨7, [65], 30, 2, [66], 0⟩, ⟨9, [67], 41, 1, [68], 5⟩] 9 [69] 50 3
    [70] 8 ⟨⟨9, [67], 41, 1, [68], 5⟩, by decide, rfl⟩).1

/-- C8.  `serve_next` on the empty store serves nothing and leaves the store
empty; on a non-empty store it serves the record at position 0 and leaves
exactly the other records, in their order, so the size drops by one. -/
theorem serve_next_spec :
    serve_next [] = (none, []) ∧
    ∀ (x : Patient) (t : PatientList),
      serve_next (x :: t) = (some x, t) ∧
      (serve_next (x :: t)).2.length + 1 = (x :: t).length := by
  refine ⟨rfl, fun x t => ?_⟩
  rw [serve_next_cons]
  exact ⟨rfl, rfl⟩

/-- C9.  On every non-empty store, in any order and with or without repeated
ids, the ID search (merge sort by id, then binary search) reports a match
exactly when the linear scan `id_exists_linear` finds the id; a reported match
is the record at the returned index of the id-sorted array and has the id
searched for; otherwise the search reports not found. -/
theorem find_by_id_agrees_with_scan (L : PatientList) (id : Int) (hne : L ≠ []) :
    ((∃ idx p, (find_by_id L id).1 = SearchOutcome.found idx p) ↔
      id_exists_linear L id = true) ∧
    (∀ idx p, (find_by_id L id).1 = SearchOutcome.found idx p →
      0 ≤ idx ∧ (sort_by_id_for_binary L)[idx.toNat]? = some p ∧ p.id = id) ∧
    (id_exists_linear L id = false → (find_by_id L id).1 = SearchOutcome.notFound) := by
  rcases find_by_id_outcome L id hne with ⟨he, hno⟩ | ⟨t, p, he, hget, hid, hmem⟩
  · have hf : id_exists_linear L id = false := (id_exists_linear_false_iff L id).2 hno
    refine ⟨?_, ?_, fun _ => he⟩
    · rw [he, hf]; simp
    · intro idx p h; rw [he] at h; cases h
  · have ht : id_exists_linear L id = true := (id_exists_linear_iff L id).2 ⟨p, hmem, hid⟩
    refine ⟨?_, ?_, ?_⟩
    · rw [ht]; simp only [iff_true]; exact ⟨t, p, he⟩
    · intro idx q h
      rw [he] at h
      injection h with h1 h2
      subst h1; subst h2
      exact ⟨by omega, by simpa using hget, hid⟩
    · intro hf; rw [ht] at hf; cases hf

theorem find_by_id_agrees_with_scan_witness :
    (find_by_id [⟨7, [65], 30, 2, [66], 0⟩, ⟨7, [67], 41, 1, [68], 5⟩] 8).1 =
      SearchOutcome.notFound :=
  (find_by_id_agrees_with_scan [⟨7, [65], 30, 2, [66], 0⟩, ⟨7, [67], 41, 1, [68], 5⟩] 8
    (by decide)).2.2 (by decide)

/-- C10.  For a query of at most 49 characters on a store whose names fit
their `NAME_LEN` buffers, `linear_search_by_name` returns `-1` exactly when no
record's lower-cased name contains the lower-cased query as a contiguous
substring, and otherwise returns the smallest index whose record's name does;
the name search hands back the store as it was. -/
theorem linear_search_by_name_spec (L : PatientList) (q : List Nat) (hq : q.length ≤ 49)
    (hn : ∀ p ∈ L, p.name.length ≤ 49) :
    (linear_search_by_name L q = -1 ↔
      ∀ p ∈ L, ¬ (q.map tolower <:+: p.name.map tolower)) ∧
    ((linear_search_by_name L q = -1 ∧ ∀ p ∈ L, ¬ (q.map tolower <:+: p.name.map tolower)) ∨
      (∃ (k : Nat) (hk : k < L.length), linear_search_by_name L q = (k : Int) ∧
        q.map tolower <:+: L[k].name.map tolower ∧
        ∀ (j : Nat) (hj : j < k), ¬ (q.map tolower <:+: (L[j]).name.map tolower))) ∧
    (find_by_name L q).2 = L := by
  have hmatch : ∀ p ∈ L, (name_matches q p ↔ q.map tolower <:+: p.name.map tolower) := by
    intro p hp
    unfold name_matches NAME_LEN
    rw [List.take_of_length_le (by simpa using hq), List.take_of_length_le (by simpa using hn p hp)]
  have hdisj : (linear_search_by_name L q = -1 ∧
        ∀ p ∈ L, ¬ (q.map tolower <:+: p.name.map tolower)) ∨
      (∃ (k : Nat) (hk : k < L.length), linear_search_by_name L q = (k : Int) ∧
        q.map tolower <:+: L[k].name.map tolower ∧
        ∀ (j : Nat) (hj : j < k), ¬ (q.map tolower <:+: (L[j]).name.map tolower)) := by
    unfold linear_search_by_name
    rcases linear_search_from_spec q L 0 with ⟨he, hno⟩ | ⟨k, hk, he, hmk, hmin⟩
    · left
      exact ⟨he, fun p hp h => hno p hp ((hmatch p hp).2 h)⟩
    · right
      refine ⟨k, hk, by rw [he]; simp, (hmatch _ (List.getElem_mem hk)).1 hmk, ?_⟩
      intro j hj h
      exact hmin j hj ((hmatch _ (List.getElem_mem (by omega))).2 h)
  refine ⟨?_, hdisj, rfl⟩
  rcases hdisj with ⟨he, hno⟩ | ⟨k, hk, he, hmk, _⟩
  · simp only [he, true_iff]; exact hno
  · constructor
    · intro h; rw [he] at h; omega
    · intro h; exact absurd hmk (h _ (List.getElem_mem hk))

theorem linear_search_by_name_spec_witness :
    (find_by_name [⟨1, cstr "Ahmed Khan", 30, 2, cstr "flu", 100⟩] (cstr "ahmed")).2 =
      [⟨1, cstr "Ahmed Khan", 30, 2, cstr "flu", 100⟩] ∧
    linear_search_by_name [⟨1, cstr "Ahmed Khan", 30, 2, cstr "flu", 100⟩] (cstr "ahmed") = 0 ∧
    linear_search_by_name [⟨1, cstr "Ahmed Khan", 30, 2, cstr "flu", 100⟩] (cstr "KHAN") = 0 ∧
    linear_search_by_name [⟨1, cstr "Ahmed Khan", 30, 2, cstr "flu", 100⟩] (cstr "med kh") = 0 ∧
    linear_search_by_name [⟨1, cstr "Ahmed Khan", 30, 2, cstr "flu", 100⟩] (cstr "khn") = -1 :=
  ⟨(linear_search_by_name_spec [⟨1, cstr "Ahmed Khan", 30, 2, cstr "flu", 100⟩] (cstr "ahmed")
      (by decide) (by decide)).2.2,
    by decide, by decide, by decide, by decide⟩

/-- C11.  For every store whose ages are not negative (the data model has
ages 0..120), every priority `row + 1` in 1..5 and every age bracket `b` among
0..17, 18..40, 41..60 and 61 or more, the cell of the matrix of `show_stats_2d`
is the number of records with that priority whose age lies in that bracket;
the boundary ages 17, 18, 40, 41, 60, 61 fall in columns 0, 1, 1, 2, 2, 3; and
records with a priority outside 1..5 add to no cell: the matrix is the one of
the store without them. -/
theorem show_stats_2d_cells (L : PatientList) (hage : ∀ r ∈ L, 0 ≤ r.age) :
    (∀ (row : Fin 5) (b : Fin 4), show_stats_2d L row b =
      L.countP (fun r => decide (r.priority = (row : Int) + 1 ∧ in_bracket b r.age))) ∧
    (age_col 17 = 0 ∧ age_col 18 = 1 ∧ age_col 40 = 1 ∧ age_col 41 = 2 ∧ age_col 60 = 2 ∧
      age_col 61 = 3) ∧
    show_stats_2d L =
      show_stats_2d (L.filter (fun r => decide (1 ≤ r.priority ∧ r.priority ≤ 5))) := by
  refine ⟨?_, by decide, foldl_stats_filter L _⟩
  intro row b
  unfold show_stats_2d
  rw [foldl_stats_cell, Nat.zero_add]
  apply List.countP_congr
  intro r hr
  simp only [decide_eq_true_eq]
  rw [age_col_iff r.age (hage r hr) b]

theorem show_stats_2d_cells_witness :
    show_stats_2d [⟨1, [65], 17, 1, [66], 0⟩, ⟨2, [65], 18, 1, [66], 0⟩,
        ⟨3, [65], 61, 5, [66], 0⟩, ⟨4, [65], 30, 9, [66], 0⟩] 0 1 =
      [(⟨1, [65], 17, 1, [66], 0⟩ : Patient), ⟨2, [65], 18, 1, [66], 0⟩,
        ⟨3, [65], 61, 5, [66], 0⟩, ⟨4, [65], 30, 9, [66], 0⟩].countP
        (fun r => decide (r.priority = ((0 : Fin 5) : Int) + 1 ∧ in_bracket 1 r.age)) :=
  (show_stats_2d_cells [⟨1, [65], 17, 1, [66], 0⟩, ⟨2, [65], 18, 1, [66], 0⟩,
    ⟨3, [65], 61, 5, [66], 0⟩, ⟨4, [65], 30, 9, [66], 0⟩] (by decide)).1 0 1

/-- C12.  For every store in which every record's priority is within 1..5,
the 20 cells of the matrix of `show_stats_2d` add up to the number of records
of the store. -/
theorem show_stats_2d_total (L : PatientList)
    (h : ∀ r ∈ L, 1 ≤ r.priority ∧ r.priority ≤ 5) :
    stats_total (show_stats_2d L) = L.length := by
  unfold show_stats_2d
  rw [foldl_stats_total L h]
  unfold stats_total
  simp

theorem show_stats_2d_total_witness :
    stats_total (show_stats_2d [⟨1, [65], 17, 1, [66], 0⟩, ⟨2, [65], 18, 1, [66], 0⟩,
        ⟨3, [65], 61, 5, [66], 0⟩]) = 3 :=
  show_stats_2d_total [⟨1, [65], 17, 1, [66], 0⟩, ⟨2, [65], 18, 1, [66], 0⟩,
    ⟨3, [65], 61, 5, [66], 0⟩] (by decide)

/-- C13 (as stated, refuted).  Headers that are not an integer, or are
missing, yet are not reported as corrupt.  With the first line `2abc`, or
`3.7`, `fscanf` reads the leading digits as the count and the load goes on
over what follows; a file with no count line, which starts with a record line,
has the id of that record read as the count.  In each case the store that
held record 7 is replaced. -/
theorem load_corrupt_header_counterexample :
    load_from_file [⟨7, [65], 30, 2, [66], 0⟩] (some (cstr "2abc\n1|Ann|30|2|flu|100\n")) =
      (LoadOutcome.loaded 1, [⟨1, cstr "Ann", 30, 2, cstr "flu", 100⟩]) ∧
    load_from_file [⟨7, [65], 30, 2, [66], 0⟩] (some (cstr "3.7\n1|Ann|30|2|flu|100\n")) =
      (LoadOutcome.loaded 1, [⟨1, cstr "Ann", 30, 2, cstr "flu", 100⟩]) ∧
    load_from_file [⟨7, [65], 30, 2, [66], 0⟩] (some (cstr "1|Ann|30|2|flu|100\n")) =
      (LoadOutcome.loaded 0, []) := by
  decide

/-- C13 (amended).  For every store and every file in which no count can be
read (after white space the file ends, or goes on with text that does not
start with a number: no digit, or a sign that no digit follows) or whose
count is a negative `int`, `load_from_file` reports a corrupt file and hands
back the store as it was: same records, same order, same count.  A file that
starts, after white space, with a non-negative count within `int` has a valid
header whatever follows the number: the load is not reported as corrupt, and
the store becomes the sorted list of the records accepted among the first `n`
reads of what follows. -/
theorem load_corrupt_header (L : PatientList) :
    (∀ content, CorruptHeader content →
      load_from_file L (some content) = (LoadOutcome.corrupted, L) ∧
      (load_from_file L (some content)).2.length = L.length) ∧
    (∀ (ws rest : List Nat) (n : Nat), (∀ c ∈ ws, isspace c = true) → n < 2 ^ 31 →
      (∀ x t, rest = x :: t → isdigit x = false) →
      load_from_file L (some (ws ++ fmt_nat n ++ rest)) =
        (LoadOutcome.loaded ((read_lines n (rest.dropWhile isspace)).countP accepts),
          bubble_sort_by_priority
            ((read_lines n (rest.dropWhile isspace)).filterMap parse_line_to_patient))) := by
  constructor
  · intro content h
    have he : load_from_file L (some content) = (LoadOutcome.corrupted, L) := by
      unfold load_from_file
      rcases h with ⟨ws, rest, hc, hws, hno⟩ | ⟨ws, v, rest, hc, hws, hv, hv2, hr⟩
      · simp only [fscanf_count_none content (hc ▸ no_number_of_no_leading ws rest hws hno)]
      · rw [hc]
        simp only [fscanf_count_negative ws rest v hws hv hv2 hr]
        rw [if_pos hv]
    rw [he]
    exact ⟨rfl, rfl⟩
  · intro ws rest n hws hn hr
    rw [load_valid_header L _ _ _ (fscanf_count_nonneg ws rest n hws hn hr) (by omega)]
    simp only [Int.toNat_ofNat, bubble_sort_length, filterMap_length_countP]

theorem load_corrupt_header_witness :
    load_from_file [⟨7, [65], 30, 2, [66], 0⟩] (some ([] ++ cstr "three\n1|Ann|30|2|flu|100\n")) =
      (LoadOutcome.corrupted, [⟨7, [65], 30, 2, [66], 0⟩]) ∧
    load_from_file [⟨7, [65], 30, 2, [66], 0⟩] (some ([32, 10] ++ [])) =
      (LoadOutcome.corrupted, [⟨7, [65], 30, 2, [66], 0⟩]) ∧
    load_from_file [⟨7, [65], 30, 2, [66], 0⟩] (some ([] ++ cstr "-x\n")) =
      (LoadOutcome.corrupted, [⟨7, [65], 30, 2, [66], 0⟩]) ∧
    load_from_file [⟨7, [65], 30, 2, [66], 0⟩] (some ([32] ++ fmt_int (-2) ++ [10])) =
      (LoadOutcome.corrupted, [⟨7, [65], 30, 2, [66], 0⟩]) :=
  ⟨((load_corrupt_header [⟨7, [65], 30, 2, [66], 0⟩]).1 _
      (Or.inl ⟨[], cstr "three\n1|Ann|30|2|flu|100\n", rfl, by decide,
        Or.inr (Or.inl ⟨116, cstr "hree\n1|Ann|30|2|flu|100\n", by decide, by decide,
          by decide, by decide, by decide⟩)⟩)).1,
   ((load_corrupt_header [⟨7, [65], 30, 2, [66], 0⟩]).1 _
      (Or.inl ⟨[32, 10], [], rfl, by decide, Or.inl rfl⟩)).1,
   ((load_corrupt_header [⟨7, [65], 30, 2, [66], 0⟩]).1 _
      (Or.inl ⟨[], cstr "-x\n", rfl, by decide,
        Or.inr (Or.inr ⟨45, cstr "x\n", by decide, Or.inl rfl,
          by intro d u h; cases h; decide⟩)⟩)).1,
   ((load_corrupt_header [⟨7, [65], 30, 2, [66], 0⟩]).1 _
      (Or.inr ⟨[32], -2, [10], rfl, by decide, by decide, by decide,
        by intro x t h; cases h; decide⟩)).1⟩

set_option maxRecDepth 100000 in
/-- C14 (as stated, refuted).  A file with the header 2 and one record line
of 270 characters: `fgets` reads the line in two parts, of 255 characters and
of the rest, `parse_line_to_patient` accepts both, and the load reports 2
records, although the file holds one record line, of which
`parse_line_to_patient` accepts the first 255 characters. -/
theorem load_count_long_line_counterexample :
    text_lines (cstr "1|A|30|2|flu|" ++ List.replicate 242 48 ++ cstr "2|B|40|3|cold|5\n") =
      [cstr "1|A|30|2|flu|" ++ List.replicate 242 48 ++ cstr "2|B|40|3|cold|5"] ∧
    ((text_lines (cstr "1|A|30|2|flu|" ++ List.replicate 242 48 ++
      cstr "2|B|40|3|cold|5\n")).take 2).countP accepts = 1 ∧
    load_from_file [] (some (cstr "2\n" ++ (cstr "1|A|30|2|flu|" ++ List.replicate 242 48 ++
      cstr "2|B|40|3|cold|5\n"))) =
      (LoadOutcome.loaded 2,
        [⟨1, cstr "A", 30, 2, cstr "flu", 0⟩, ⟨2, cstr "B", 40, 3, cstr "cold", 5⟩]) := by
  refine ⟨by decide, by decide, by decide⟩

/-- C14 (amended).  For every file with a valid header count `n ≥ 0`, the
number of records in the store after `load_from_file`, which is the count it
reports, is the number of texts that `parse_line_to_patient` accepts among the
first `n` reads of `fgets` after the header and the white space that follows
it (a read ends after a newline or after 255 characters); it never exceeds
`n`.  For a file text whose lines are shorter than 255 characters, hold no NUL
and do not start with white space after the header, these reads are the first
`n` lines of the file, and the lines beyond the `n`-th are ignored. -/
theorem load_count (L : PatientList) (content rest : List Nat) (n : Int)
    (hh : fscanf_count content = some (n, rest)) (hn : 0 ≤ n) :
    (load_from_file L (some content)).1 =
      LoadOutcome.loaded ((read_lines n.toNat rest).countP accepts) ∧
    (load_from_file L (some content)).2.length = (read_lines n.toNat rest).countP accepts ∧
    ((read_lines n.toNat rest).countP accepts : Int) ≤ n ∧
    ∀ (k : Nat) (lines : List (List Nat)), k < 2 ^ 31 →
      (∀ b ∈ lines, (∀ c ∈ b, c ≠ 0 ∧ c ≠ 10) ∧ b.length < LINE_LEN - 1) →
      (∀ x t, lines_text lines = x :: t → isspace x = false) →
      (load_from_file L (some (file_text k lines))).1 =
        LoadOutcome.loaded ((lines.take k).countP accepts) ∧
      load_from_file L (some (file_text k lines)) =
        load_from_file L (some (file_text k (lines.take k))) := by
  rw [load_valid_header L content rest n hh hn]
  simp only [bubble_sort_length, filterMap_length_countP]
  refine ⟨trivial, trivial, ?_, fun k lines hk hl h0 => load_file_text_count L k lines hk hl h0⟩
  have h1 := List.countP_le_length accepts (l := read_lines n.toNat rest)
  have h2 := read_lines_length n.toNat rest
  omega

theorem load_count_witness :
    (load_from_file [] (some (cstr
        "2\n1|Ann|30|2|flu|100\nnot a record\n3|Cy|40|3|x|300\n"))).1 =
      LoadOutcome.loaded ((read_lines 2 (cstr
        "1|Ann|30|2|flu|100\nnot a record\n3|Cy|40|3|x|300\n")).countP accepts) ∧
    (read_lines 2 (cstr
        "1|Ann|30|2|flu|100\nnot a record\n3|Cy|40|3|x|300\n")).countP accepts = 1 :=
  ⟨(load_count [] (cstr "2\n1|Ann|30|2|flu|100\nnot a record\n3|Cy|40|3|x|300\n")
      (cstr "1|Ann|30|2|flu|100\nnot a record\n3|Cy|40|3|x|300\n") 2
      (by decide) (by decide)).1, by decide⟩

/-- C15.  Whenever `parse_line_to_patient` accepts a line, the line holds at
least five `|` delimiters (six fields) and the record has id at least 1, age
in 0..120, priority in 1..5 and a non-empty name; so every record of the store
after a load that went through satisfies these ranges. -/
theorem parse_accepts_in_range (line : List Nat) (p : Patient)
    (h : parse_line_to_patient line = some p) :
    (5 ≤ line.count 124 ∧ 1 ≤ p.id ∧ (0 ≤ p.age ∧ p.age ≤ 120) ∧
      (1 ≤ p.priority ∧ p.priority ≤ 5) ∧ p.name ≠ []) ∧
    ∀ (L : PatientList) (file : Option (List Nat)) (k : Nat),
      (load_from_file L file).1 = LoadOutcome.loaded k →
      ∀ q ∈ (load_from_file L file).2, InRange q := by
  refine ⟨⟨(parse_some line p h).1, (parse_some line p h).2⟩, ?_⟩
  intro L file k hk q hq
  unfold load_from_file at hk hq
  cases file with
  | none => simp at hk
  | some content =>
    simp only at hk hq
    cases hf : fscanf_count content with
    | none => simp [hf] at hk
    | some nr =>
      obtain ⟨n, rest⟩ := nr
      simp only [hf] at hk hq
      by_cases hn : n < 0
      · simp [hn] at hk
      · simp only [hn, if_false, load_loop_reads, List.nil_append] at hq
        have hq2 := (bubble_sort_perm _).subset hq
        obtain ⟨l, _, hl⟩ := List.mem_filterMap.1 hq2
        exact (parse_some l q hl).2

theorem parse_accepts_in_range_witness :
    5 ≤ (cstr "2|Bob|abc|1|cold|200").count 124 ∧
    InRange ⟨2, cstr "Bob", 0, 1, cstr "cold", 200⟩ :=
  ⟨(parse_accepts_in_range (cstr "2|Bob|abc|1|cold|200") ⟨2, cstr "Bob", 0, 1, cstr "cold", 200⟩
      (by decide)).1.1,
   (parse_accepts_in_range (cstr "2|Bob|abc|1|cold|200") ⟨2, cstr "Bob", 0, 1, cstr "cold", 200⟩
      (by decide)).1.2⟩

/-- C16.  On every record sequence, in any initial order,
`bubble_sort_by_priority` returns a permutation of its input, in non-decreasing
priority order, in which the records of each priority keep their input order;
the result is the insertion sort of the input on the priority key, a stable
reference sort. -/
theorem bubble_sort_is_stable_sort (L : PatientList) :
    (bubble_sort_by_priority L).Perm L ∧
    PrioSorted (bubble_sort_by_priority L) ∧
    (∀ c, prioClass c (bubble_sort_by_priority L) = prioClass c L) ∧
    bubble_sort_by_priority L = List.insertionSort prio_le L := by
  refine ⟨bubble_sort_perm L, bubble_sort_sorted L, bubble_sort_prioClass L, ?_⟩
  refine prioSorted_ext _ _ (bubble_sort_sorted L) (insertionSort_prioSorted L) (fun c => ?_)
  rw [bubble_sort_prioClass, insertionSort_prioClass]

/-- C17.  On every record sequence `sort_by_id_for_binary` (a total function:
the recursion of `merge_sort_by_id_rec` and the loops of `merge_by_id` end)
returns a permutation of its input in non-decreasing id order, in which the
records of each id keep their input order; it is the stable merge sort of the
input on the id key, and when the ids are pairwise distinct the result is
strictly increasing in id. -/
theorem sort_by_id_is_stable_sort (L : PatientList) :
    (sort_by_id_for_binary L).Perm L ∧
    IdSorted (sort_by_id_for_binary L) ∧
    (∀ c, idClass c (sort_by_id_for_binary L) = idClass c L) ∧
    sort_by_id_for_binary L = L.mergeSort le_id ∧
    ((L.map (·.id)).Nodup →
      (sort_by_id_for_binary L).Pairwise (fun x y => x.id < y.id)) := by
  refine ⟨sort_by_id_perm L, sort_by_id_sorted L, sort_by_id_idClass L,
    sort_by_id_eq_mergeSort L, fun hn => ?_⟩
  exact idSorted_strict _ (sort_by_id_sorted L)
    ((((sort_by_id_perm L).map (·.id)).nodup_iff).2 hn)

theorem sort_by_id_is_stable_sort_witness :
    (sort_by_id_for_binary [⟨3, [65], 30, 2, [66], 0⟩, ⟨1, [67], 41, 1, [68], 5⟩,
      ⟨2, [69], 52, 3, [70], 9⟩]).Pairwise (fun x y => x.id < y.id) :=
  (sort_by_id_is_stable_sort [⟨3, [65], 30, 2, [66], 0⟩, ⟨1, [67], 41, 1, [68], 5⟩,
    ⟨2, [69], 52, 3, [70], 9⟩]).2.2.2.2 (by decide)

/-- C18.  On every record sequence in non-decreasing id order and for every
id, `binary_search_by_id` (a total function: its loop ends) reads only
positions within `0 .. size-1` (it never yields the out-of-range result
`none`), returns `-1` or an index within `0 .. size-1`, returns an index whose
record has the id whenever some record has it, and returns `-1` exactly when no
record has the id. -/
theorem binary_search_by_id_correct (a : PatientList) (id : Int) (hs : IdSorted a) :
    (∃ r : Int, binary_search_by_id a id = some r ∧ (r = -1 ∨ (0 ≤ r ∧ r < a.length))) ∧
    ((∃ p ∈ a, p.id = id) →
      ∃ (t : Nat) (ht : t < a.length), binary_search_by_id a id = some (t : Int) ∧
        a[t].id = id) ∧
    (binary_search_by_id a id = some (-1) ↔ ∀ p ∈ a, p.id ≠ id) := by
  have hb : ∃ r : Int, binary_search_by_id a id = some r ∧
      (r = -1 ∨ (0 ≤ r ∧ r < a.length)) := by
    unfold binary_search_by_id
    exact binary_search_in_bounds a id _ 0 _ rfl (le_refl _) (by omega)
  rcases binary_search_by_id_spec a id hs with ⟨he, hno⟩ | ⟨t, ht, he, hid⟩
  · refine ⟨hb, ?_, ?_⟩
    · rintro ⟨p, hp, hpid⟩
      exact absurd hpid (hno p hp)
    · rw [he]
      exact ⟨fun _ => hno, fun _ => rfl⟩
  · refine ⟨hb, fun _ => ⟨t, ht, he, hid⟩, ?_⟩
    rw [he]
    constructor
    · intro h
      injection h with h
      omega
    · intro h
      exact absurd hid (h _ (List.getElem_mem ht))

theorem binary_search_by_id_correct_witness :
    binary_search_by_id [⟨1, [67], 41, 1, [68], 5⟩, ⟨2, [69], 52, 3, [70], 9⟩,
      ⟨3, [65], 30, 2, [66], 0⟩] 4 = some (-1) :=
  (binary_search_by_id_correct [⟨1, [67], 41, 1, [68], 5⟩, ⟨2, [69], 52, 3, [70], 9⟩,
    ⟨3, [65], 30, 2, [66], 0⟩] 4 (by unfold IdSorted; decide)).2.2.2 (by decide)

/-- C19.  A load with a valid header replaces the store: for every file with
a valid header count and any two prior stores the resulting stores are the
same, every record in the result was parsed from a line read from the file,
and with a header count of 0 the result is the empty store. -/
theorem load_replaces_store (content rest : List Nat) (n : Int)
    (hh : fscanf_count content = some (n, rest)) (hn : 0 ≤ n) (L1 L2 : PatientList) :
    load_from_file L1 (some content) = load_from_file L2 (some content) ∧
    (∀ p ∈ (load_from_file L1 (some content)).2,
      ∃ line ∈ read_lines n.toNat rest, parse_line_to_patient line = some p) ∧
    (n = 0 → load_from_file L1 (some content) = (LoadOutcome.loaded 0, [])) := by
  rw [load_valid_header L1 content rest n hh hn, load_valid_header L2 content rest n hh hn]
  refine ⟨rfl, ?_, ?_⟩
  · intro p hp
    have hp2 := (bubble_sort_perm _).subset hp
    exact List.mem_filterMap.1 hp2
  · intro h0
    rw [h0]
    rfl

theorem load_replaces_store_witness :
    load_from_file [⟨7, [65], 30, 2, [66], 0⟩] (some (cstr "0\n1|Ann|30|2|flu|100\n")) =
      (LoadOutcome.loaded 0, []) ∧
    load_from_file [⟨7, [65], 30, 2, [66], 0⟩] (some (cstr "0\n1|Ann|30|2|flu|100\n")) =
      load_from_file [] (some (cstr "0\n1|Ann|30|2|flu|100\n")) :=
  ⟨(load_replaces_store (cstr "0\n1|Ann|30|2|flu|100\n") (cstr "1|Ann|30|2|flu|100\n") 0
      (by decide) (by decide) [⟨7, [65], 30, 2, [66], 0⟩] []).2.2 rfl,
   (load_replaces_store (cstr "0\n1|Ann|30|2|flu|100\n") (cstr "1|Ann|30|2|flu|100\n") 0
      (by decide) (by decide) [⟨7, [65], 30, 2, [66], 0⟩] []).1⟩
/-- C20.  For every store and every id, after the ID search (sort by id,
binary search, bubble sort by priority) the store holds the same records as
before, as a permutation with the same count, in non-decreasing priority
order, and records of equal priority stand in non-decreasing id order. -/
theorem find_by_id_store_order (L : PatientList) (id : Int) :
    (find_by_id L id).2.Perm L ∧
    (find_by_id L id).2.length = L.length ∧
    PrioSorted (find_by_id L id).2 ∧
    (find_by_id L id).2.Pairwise PrioThenId ∧
    (∀ c, IdSorted (prioClass c (find_by_id L id).2)) := by
  refine ⟨find_by_id_perm L id, (find_by_id_perm L id).length_eq, ?_,
    find_by_id_tie_order L id, fun c => ?_⟩
  · rw [find_by_id_store]; exact bubble_sort_sorted _
  · rw [find_by_id_store, bubble_sort_prioClass]
    unfold IdSorted prioClass
    exact List.Pairwise.filter _ (sort_by_id_sorted L)

end PatientQueue
